import Mathlib

/-!
A shallow embedding of the rsds worker reactor state (`src/worker/state.rs`),
the peer data fetch routine (`src/transfer/fetch.rs`) and the command line
option parsing (`src/bin/rsds.rs`), together with theorems settling the
spec claims about them.

Rust `Rc`-shared objects (`TaskRef`, `DataObjectRef`) are embedded as
indices into append-only heaps (`wtasks`, `dobjs`); the `HashMap`s keyed by
`TaskId` are embedded as association lists from ids to heap indices.
Panicking paths (`assert!`, `unreachable!`, `todo!`) are embedded as `none`:
an operation returns `some s'` exactly when the Rust code completes without
aborting the process.

The files `src/worker/task.rs`, `src/worker/data.rs` and
`src/worker/reactor.rs` of the repository are not available; the few
helpers from them that `state.rs` calls (`increase_waiting_count`,
`decrease_waiting_count`, `is_ready`, `set_running`, `choose_subworker`,
`TaskRef::new`) are modelled from the spec and marked as such.
-/

namespace Rsds

/-- `DataObjectState` from `worker/data.rs`: `Remote(RemoteData{workers})`,
`Local(LocalData{serializer, bytes})`, `Removed`. Bytes are a list of byte
values, the serialization type an abstract code. -/
inductive DState where
  | Remote (workers : List Nat)
  | Lcl (bytes : List Nat) (serializer : Nat)
  | Removed
deriving DecidableEq, Repr

/-- Whether a data object state is `Local`. -/
def DState.isLcl : DState → Bool
  | .Lcl _ _ => true
  | _ => false

/-- `DataObject` from `worker/data.rs`: id (= producing TaskId), size,
state, and the consumer set (task heap indices, kept duplicate free by
`consumers_insert`, mirroring Rust's `Set<TaskRef>`). -/
structure DataObject where
  id : Nat
  size : Nat
  state : DState
  consumers : List Nat
deriving DecidableEq, Repr

/-- `TaskState` from `worker/task.rs`: `Waiting(waiting_count)`,
`Running(subworker)`, `Removed`. -/
inductive TState where
  | Waiting (n : Nat)
  | Running (sub : Nat)
  | Removed
deriving DecidableEq, Repr

/-- Worker-side `Task` from `worker/task.rs`: id, priority pair
`(user_priority, internal_priority)`, dependency list (data-object heap
indices) and state. -/
structure WTask where
  id : Nat
  priority : Nat × Nat
  deps : List Nat
  state : TState
deriving DecidableEq, Repr

/-- Modelled from the spec: `decrease_waiting_count` of `worker/task.rs`.
Decrements the remaining-wait count of a `Waiting` task and reports whether
the count reached zero (the task became ready); decrementing a task that is
not waiting, or whose count is already zero, is a panic (`none`). -/
def decrease_waiting_count : TState → Option (TState × Bool)
  | .Waiting (n + 1) => some (.Waiting n, n == 0)
  | _ => none

/-- Modelled from the spec: `increase_waiting_count` of `worker/task.rs`.
Increments the remaining-wait count of a `Waiting` task; a task that is not
waiting cannot gain dependencies (panic, `none`). -/
def increase_waiting_count : TState → Option TState
  | .Waiting n => some (.Waiting (n + 1))
  | _ => none

/-- Modelled from the spec: `is_ready` of `worker/task.rs` — a task is
ready when its remaining-wait count is zero. -/
def TState.is_ready : TState → Bool
  | .Waiting 0 => true
  | _ => false

/-- Association-list lookup, embedding `HashMap::get`. -/
def lookupM {α : Type} (m : List (Nat × α)) (k : Nat) : Option α :=
  match m with
  | [] => none
  | (k', v) :: rest => if k' = k then some v else lookupM rest k

/-- Association-list erase, embedding `HashMap::remove`. -/
def eraseM {α : Type} : List (Nat × α) → Nat → List (Nat × α)
  | [], _ => []
  | p :: rest, k => if p.1 = k then eraseM rest k else p :: eraseM rest k

/-- Association-list insert, embedding `HashMap::insert`. -/
def insertM {α : Type} (m : List (Nat × α)) (k : Nat) (v : α) : List (Nat × α) :=
  (k, v) :: eraseM m k

/-- `Set::insert` on a consumer set held as a duplicate-free list. -/
def consumers_insert (c : List Nat) (tref : Nat) : List Nat :=
  if tref ∈ c then c else c ++ [tref]

/-- A ready-queue entry: task heap index paired with its cached priority. -/
abbrev QEntry := Nat × (Nat × Nat)

/-- Strict lexicographic order on priority pairs. Under the `Reverse`
wrapper in `ready_task_queue`, a smaller pair is a higher priority. -/
def pairLt (a b : Nat × Nat) : Prop :=
  a.1 < b.1 ∨ (a.1 = b.1 ∧ a.2 < b.2)

/-- Non-strict lexicographic order on priority pairs. -/
def pairLe (a b : Nat × Nat) : Prop :=
  a.1 < b.1 ∨ (a.1 = b.1 ∧ a.2 ≤ b.2)

instance (a b : Nat × Nat) : Decidable (pairLt a b) := by
  unfold pairLt; infer_instance

instance (a b : Nat × Nat) : Decidable (pairLe a b) := by
  unfold pairLe; infer_instance

/-- `PriorityQueue::pop` of the `priority_queue` crate under the
`Reverse` priority wrapper: returns an entry whose priority pair is
lexicographically minimal, together with the remaining queue. The crate
breaks ties between equal priorities by its internal heap layout, which is
a function of the insertion history and never of the `TaskId`; the
embedding realizes ties as earliest-inserted-first, which coincides with
the crate's binary heap on the queues appearing in the theorems below. -/
def queue_pop : List QEntry → Option (QEntry × List QEntry)
  | [] => none
  | e :: rest =>
    match queue_pop rest with
    | none => some (e, [])
    | some (m, rest') => if pairLt m.2 e.2 then some (m, e :: rest') else some (e, rest)

/-- `PriorityQueue::push`: inserting an item already present updates its
priority in place, otherwise the item is appended. -/
def queue_push (q : List QEntry) (tref : Nat) (prio : Nat × Nat) : List QEntry :=
  if q.any (fun e => e.1 == tref) then
    q.map (fun e => if e.1 == tref then (tref, prio) else e)
  else q ++ [(tref, prio)]

/-- `PriorityQueue::remove`, by item: drops the entry of `tref`. -/
def queue_remove (q : List QEntry) (tref : Nat) : List QEntry :=
  q.filter (fun e => e.1 ≠ tref)

/-- Whether the queue holds an entry for `tref` (`remove(..).is_some()`). -/
def queue_contains (q : List QEntry) (tref : Nat) : Bool :=
  q.any (fun e => e.1 == tref)

/-- `WorkerState` from `worker/state.rs`. `wtasks` and `dobjs` are the
heaps backing `TaskRef` / `DataObjectRef`; `task_map` and `data_map` embed
the `tasks` and `data_objects` hash maps as id → heap index; `msgs`
records the ids of `DataDownloaded` messages sent to the scheduler;
`downloads` records the fetch requests sent on `download_sender`. -/
structure WorkerState where
  wtasks : List WTask
  dobjs : List DataObject
  task_map : List (Nat × Nat)
  data_map : List (Nat × Nat)
  ready_queue : List QEntry
  free_subworkers : List Nat
  subworkers : List (Nat × Option Nat)
  msgs : List Nat
  downloads : List (Nat × (Nat × Nat))
deriving DecidableEq, Repr

/-- The freshly created worker state (`WorkerStateRef::new`). -/
def initState : WorkerState :=
  ⟨[], [], [], [], [], [], [], [], []⟩

/-- `set_subworkers`: asserts both subworker containers are empty, then
installs the given subworkers as the free pool. -/
def set_subworkers (s : WorkerState) (ids : List Nat) : Option WorkerState :=
  if s.subworkers.isEmpty && s.free_subworkers.isEmpty then
    some { s with free_subworkers := ids, subworkers := ids.map (fun i => (i, none)) }
  else none

/-- Modelled from the spec: `TaskRef::new` of `worker/task.rs` — a task is
created on `Assign` with an empty dependency list and a remaining-wait
count of zero; dependencies are added afterwards by `add_dependancy`.
Returns the new state and the heap index of the fresh task. -/
def create_task (s : WorkerState) (id : Nat) (priority : Nat × Nat) : WorkerState × Nat :=
  ({ s with wtasks := s.wtasks ++ [⟨id, priority, [], .Waiting 0⟩] }, s.wtasks.length)

/-- One iteration step of the `while let Some(..) = self.ready_task_queue.pop()`
loop of `try_start_tasks`; the fuel starts at the queue length, which
bounds the number of pops. `choose_subworker` (from `worker/reactor.rs`,
modelled from the spec) pops a subworker from the free LIFO stack; the
`assert!(sw.running_task.is_none())` is the `some none` requirement. -/
def try_start_loop : Nat → WorkerState → Option WorkerState
  | 0, s => some s
  | fuel + 1, s =>
    match queue_pop s.ready_queue with
    | none => some s
    | some ((tref, _), q') =>
      match s.free_subworkers.getLast? with
      | none => none
      | some swid =>
        match s.wtasks[tref]? with
        | none => none
        | some t =>
          match t.state with
          | .Waiting _ =>
            match lookupM s.subworkers swid with
            | some none =>
              let s' : WorkerState :=
                { s with
                  wtasks := s.wtasks.set tref { t with state := .Running swid },
                  free_subworkers := s.free_subworkers.dropLast,
                  subworkers := insertM s.subworkers swid (some tref),
                  ready_queue := q' }
              if s'.free_subworkers.isEmpty then some s' else try_start_loop fuel s'
            | _ => none
          | _ => none

/-- `try_start_tasks`: returns immediately when no subworker is free,
otherwise runs the pop-and-start loop. -/
def try_start_tasks (s : WorkerState) : Option WorkerState :=
  if s.free_subworkers.isEmpty then some s
  else try_start_loop s.ready_queue.length s

/-- `add_ready_task`: push the task with its cached priority onto the
ready queue, then attempt to start tasks. -/
def add_ready_task (s : WorkerState) (tref : Nat) : Option WorkerState :=
  match s.wtasks[tref]? with
  | none => none
  | some t => try_start_tasks { s with ready_queue := queue_push s.ready_queue tref t.priority }

/-- The shared tail of `add_dependancy` once the `DataObjectRef` has been
resolved: insert the task into the object's consumer set; if the object is
remote, increment the task's wait count and enqueue a fetch request with
the task's priority; finally push the object onto the task's `deps`. -/
def add_dependancy_core (s : WorkerState) (tref : Nat) (t : WTask) (dref : Nat)
    (is_remote : Bool) : Option WorkerState :=
  match s.dobjs[dref]? with
  | none => none
  | some o =>
    let s2 : WorkerState :=
      { s with dobjs := s.dobjs.set dref { o with consumers := consumers_insert o.consumers tref } }
    if is_remote then
      match increase_waiting_count t.state with
      | none => none
      | some ts' =>
        some { s2 with
          wtasks := s2.wtasks.set tref { t with state := ts', deps := t.deps ++ [dref] },
          downloads := s2.downloads ++ [(dref, t.priority)] }
    else
      some { s2 with wtasks := s2.wtasks.set tref { t with deps := t.deps ++ [dref] } }

/-- `add_dependancy`: resolve the dependency id in `data_objects`; a fresh
`Remote` object is created when absent; an existing `Remote` object has its
candidate worker list replaced; an existing `Removed` object is
`unreachable!()`. -/
def add_dependancy (s : WorkerState) (tref : Nat) (task_id : Nat) (size : Nat)
    (workers : List Nat) : Option WorkerState :=
  match s.wtasks[tref]? with
  | none => none
  | some t =>
    match lookupM s.data_map task_id with
    | none =>
      let dref := s.dobjs.length
      let s1 : WorkerState :=
        { s with
          dobjs := s.dobjs ++ [⟨task_id, size, .Remote workers, []⟩],
          data_map := insertM s.data_map task_id dref }
      add_dependancy_core s1 tref t dref true
    | some dref =>
      match s.dobjs[dref]? with
      | none => none
      | some o =>
        match o.state with
        | .Remote _ =>
          add_dependancy_core
            { s with dobjs := s.dobjs.set dref { o with state := .Remote workers } }
            tref t dref true
        | .Lcl _ _ => add_dependancy_core s tref t dref false
        | .Removed => none

/-- `add_task`: a directly ready task is pushed onto the ready queue (and
task starting attempted) before the task is inserted into the task map. -/
def add_task (s : WorkerState) (tref : Nat) : Option WorkerState :=
  match s.wtasks[tref]? with
  | none => none
  | some t =>
    match (if t.state.is_ready then add_ready_task s tref else some s) with
    | none => none
    | some s1 => some { s1 with task_map := insertM s1.task_map t.id tref }

/-- The `for task_ref in &data_ref.get().consumers` loop of
`on_data_downloaded`: decrement each consumer's wait count; a consumer
becoming ready is pushed onto the ready queue (which attempts to start
tasks). -/
def download_consumers : WorkerState → List Nat → Option WorkerState
  | s, [] => some s
  | s, c :: rest =>
    match s.wtasks[c]? with
    | none => none
    | some t =>
      match decrease_waiting_count t.state with
      | none => none
      | some (ts', ready) =>
        let s1 : WorkerState := { s with wtasks := s.wtasks.set c { t with state := ts' } }
        match (if ready then add_ready_task s1 c else some s1) with
        | none => none
        | some s2 => download_consumers s2 rest

/-- `on_data_downloaded`: a `Removed` object drops the download silently; a
`Local` object is `unreachable!()`; a `Remote` object becomes `Local` with
the downloaded bytes and serializer, a `DataDownloaded(id)` message is sent
to the scheduler, and consumers are notified. -/
def on_data_downloaded (s : WorkerState) (dref : Nat) (data : List Nat) (serializer : Nat) :
    Option WorkerState :=
  match s.dobjs[dref]? with
  | none => none
  | some o =>
    match o.state with
    | .Removed => some s
    | .Lcl _ _ => none
    | .Remote _ =>
      let s1 : WorkerState :=
        { s with
          dobjs := s.dobjs.set dref { o with state := .Lcl data serializer },
          msgs := s.msgs ++ [o.id] }
      download_consumers s1 o.consumers

/-- `remove_data`: removing an absent id is a no-op; otherwise the object
leaves the map and its state becomes `Removed`; a non-empty consumer set
hits the `todo!()` abort. -/
def remove_data (s : WorkerState) (task_id : Nat) : Option WorkerState :=
  match lookupM s.data_map task_id with
  | none => some s
  | some dref =>
    match s.dobjs[dref]? with
    | none => none
    | some o =>
      if o.consumers.isEmpty then
        some { s with
          data_map := eraseM s.data_map task_id,
          dobjs := s.dobjs.set dref { o with state := .Removed } }
      else none

/-- The `for data_ref in std::mem::take(&mut task.deps)` loop of
`remove_task`: remove the task from each dependency's consumer set
(`assert!` it was there); a dependency whose consumers become empty and
whose state is `Remote` asserts `!just_finished` and becomes `Removed`. -/
def remove_deps : WorkerState → Nat → Bool → List Nat → Option WorkerState
  | s, _, _, [] => some s
  | s, tref, just_finished, dref :: rest =>
    match s.dobjs[dref]? with
    | none => none
    | some o =>
      if tref ∈ o.consumers then
        let cs := o.consumers.filter (fun c => c ≠ tref)
        match (if cs.isEmpty then
                match o.state with
                | .Remote _ => if just_finished then none else some DState.Removed
                | st => some st
              else some o.state) with
        | none => none
        | some st' =>
          remove_deps { s with dobjs := s.dobjs.set dref { o with consumers := cs, state := st' } }
            tref just_finished rest
      else none

/-- The tail of `remove_task` after the state `match`: set the task state
to `Removed` (its `deps` are `mem::take`n), remove the task's id from the
task map (`assert!` it was present) and clean up the dependencies. -/
def remove_task_core (s : WorkerState) (tref : Nat) (t : WTask) (just_finished : Bool) :
    Option WorkerState :=
  let s1 : WorkerState :=
    { s with wtasks := s.wtasks.set tref { t with state := .Removed, deps := [] } }
  match lookupM s1.task_map t.id with
  | none => none
  | some _ =>
    remove_deps { s1 with task_map := eraseM s1.task_map t.id } tref just_finished t.deps

/-- `remove_task`: a `Waiting` task asserts `!just_finished` and, when its
count is zero, is removed from the ready queue (`assert!` it was there); a
`Running` task asserts `just_finished`; a `Removed` task is
`unreachable!()`. -/
def remove_task (s : WorkerState) (tref : Nat) (just_finished : Bool) : Option WorkerState :=
  match s.wtasks[tref]? with
  | none => none
  | some t =>
    match t.state with
    | .Waiting x =>
      if just_finished then none
      else if x == 0 then
        if queue_contains s.ready_queue tref then
          remove_task_core { s with ready_queue := queue_remove s.ready_queue tref }
            tref t just_finished
        else none
      else remove_task_core s tref t just_finished
    | .Running _ =>
      if just_finished then remove_task_core s tref t just_finished else none
    | .Removed => none

/-- `StealResponse` from the worker protocol messages. -/
inductive StealResponse where
  | Ok
  | Running
  | NotHere
deriving DecidableEq, Repr

/-- `steal_task`: an id absent from the task map, or mapping to a task
already `Removed`, answers `NotHere`; a `Running` task answers `Running`;
a `Waiting` task is removed (not `just_finished`) and answers `Ok`. -/
def steal_task (s : WorkerState) (task_id : Nat) : Option (StealResponse × WorkerState) :=
  match lookupM s.task_map task_id with
  | none => some (.NotHere, s)
  | some tref =>
    match s.wtasks[tref]? with
    | none => none
    | some t =>
      match t.state with
      | .Waiting _ => (remove_task s tref false).map (fun s' => (.Ok, s'))
      | .Running _ => some (.Running, s)
      | .Removed => some (.NotHere, s)

/-- The operations the reactor performs on the worker state, as invoked by
its message handlers. -/
inductive Op where
  | setsub (ids : List Nat)
  | create (id : Nat) (priority : Nat × Nat)
  | adddep (tref task_id size : Nat) (workers : List Nat)
  | addtask (tref : Nat)
  | download (dref : Nat) (data : List Nat) (serializer : Nat)
  | rmdata (task_id : Nat)
  | rmtask (tref : Nat) (just_finished : Bool)
  | steal (task_id : Nat)
deriving DecidableEq, Repr

/-- Apply one operation; `none` is a panic of the underlying Rust code. -/
def apply_op (s : WorkerState) : Op → Option WorkerState
  | .setsub ids => set_subworkers s ids
  | .create id priority => some (create_task s id priority).1
  | .adddep tref task_id size workers => add_dependancy s tref task_id size workers
  | .addtask tref => add_task s tref
  | .download dref data serializer => on_data_downloaded s dref data serializer
  | .rmdata task_id => remove_data s task_id
  | .rmtask tref just_finished => remove_task s tref just_finished
  | .steal task_id => (steal_task s task_id).map (fun r => r.2)

/-- Apply a list of operations from the left. -/
def apply_ops (ops : List Op) (s : WorkerState) : Option WorkerState :=
  match ops with
  | [] => some s
  | op :: rest =>
    match apply_op s op with
    | none => none
    | some s' => apply_ops rest s'

/-- An operation respects dependency distinctness when it never adds to a
task a dependency id that already resolves to one of the task's `deps`
(the reactor adds each declared dependency of an assignment once). -/
def good_op (s : WorkerState) : Op → Bool
  | .adddep tref task_id _ _ =>
    match lookupM s.data_map task_id, s.wtasks[tref]? with
    | some dref, some t => !(t.deps.contains dref)
    | _, _ => true
  | _ => true

/-- Worker states reachable from the fresh state by panic-free operations
that respect dependency distinctness. -/
inductive Reach : WorkerState → Prop where
  | init : Reach initState
  | step (s s' : WorkerState) (op : Op) : Reach s → good_op s op = true →
      apply_op s op = some s' → Reach s'

/-- `DataResponse` from `transfer/messages.rs` as consumed by
`fetch_data`: the serializer is the only header field the routine uses. -/
inductive DataResponse where
  | NotAvailable
  | Data (serializer : Nat)
  | DataUploaded (u : Nat)
deriving DecidableEq, Repr

/-- `DataRequest` frames sent by `fetch_data`. -/
inductive DataRequest where
  | FetchRequest (task_id : Nat)
deriving DecidableEq, Repr

/-- One incoming length-delimited frame: its payload bytes, together with
what `rmp_serde::from_slice::<DataResponse>` would yield on it (`none` for
a deserialization failure). -/
structure Frame where
  payload : List Nat
  decoded : Option DataResponse
deriving DecidableEq, Repr

/-- `fetch_data` from `transfer/fetch.rs`, as a function of the frames the
peer sends after the request (the stream of `stream.next()` results; an
exhausted list is a closed connection). Returns the frame sent on the
stream and either an error or the remaining stream, the body bytes of the
second frame, and the header's serializer. -/
def fetch_data (task_id : Nat) (incoming : List Frame) :
    DataRequest × Except String (List Frame × List Nat × Nat) :=
  ( DataRequest.FetchRequest task_id,
    match incoming with
    | [] => .error "Unexpected close of connection"
    | f :: rest =>
      match f.decoded with
      | none => .error "deserialization failed"
      | some .NotAvailable => .error "Data object not available"
      | some (.DataUploaded _) => .error "Request returned invalid response"
      | some (.Data serializer) =>
        match rest with
        | [] => .error "Unexpected close of connection"
        | body :: rest2 => .ok (rest2, body.payload, serializer) )

/-- `SchedulerType` from `bin/rsds.rs`. -/
inductive SchedulerType where
  | Workstealing
  | Random
deriving DecidableEq, Repr

/-- `SchedulerType::from_str` from `bin/rsds.rs`. -/
def SchedulerType.from_str (scheduler : String) : Except String SchedulerType :=
  if scheduler = "workstealing" then .ok .Workstealing
  else if scheduler = "random" then .ok .Random
  else .error ("Scheduler " ++ scheduler ++ " does not exist")

/-- The numeric value of a decimal digit character, `none` otherwise. -/
def digitVal (c : Char) : Option Nat :=
  if 48 ≤ c.toNat ∧ c.toNat ≤ 57 then some (c.toNat - 48) else none

/-- Accumulate decimal digits left to right. -/
def decimalAux : List Char → Nat → Option Nat
  | [], acc => some acc
  | c :: rest, acc =>
    match digitVal c with
    | none => none
    | some d => decimalAux rest (acc * 10 + d)

/-- The decimal value of a non-empty all-digit character list. -/
def decimalNat? : List Char → Option Nat
  | [] => none
  | cs => decimalAux cs 0

/-- The `u16` `FromStr` parse applied by structopt to `--port` values
(unsigned decimal digits, value below `2^16`). -/
def parse_u16 (s : String) : Option Nat :=
  match decimalNat? s.data with
  | none => none
  | some n => if n < 65536 then some n else none

/-- `--port` parsing: structopt substitutes the `default_value = "8786"`
when the flag is absent and feeds the string to the `u16` parser. -/
def parse_port (arg : Option String) : Option Nat :=
  parse_u16 (arg.getD "8786")

/-- `--scheduler` parsing: structopt substitutes the
`default_value = "workstealing"` when the flag is absent and feeds the
string to `SchedulerType::from_str`. -/
def parse_scheduler (arg : Option String) : Except String SchedulerType :=
  SchedulerType.from_str (arg.getD "workstealing")

/-- Popping the ready queue repeatedly; the fuel bounds the number of
pops and `popAll` supplies the queue length, which is exact since every
pop shrinks the queue by one. -/
def queue_pop_all : Nat → List QEntry → List QEntry
  | 0, _ => []
  | fuel + 1, q =>
    match queue_pop q with
    | none => []
    | some (e, q') => e :: queue_pop_all fuel q'

/-- The full pop sequence of a ready queue. -/
def popAll (q : List QEntry) : List QEntry :=
  queue_pop_all q.length q

theorem pairLe_refl (a : Nat × Nat) : pairLe a a :=
  Or.inr ⟨rfl, Nat.le_refl _⟩

theorem pairLe_trans {a b c : Nat × Nat} (h1 : pairLe a b) (h2 : pairLe b c) : pairLe a c := by
  unfold pairLe at *; omega

theorem pairLe_of_pairLt {a b : Nat × Nat} (h : pairLt a b) : pairLe a b := by
  unfold pairLt at h; unfold pairLe; omega

theorem pairLe_of_not_pairLt {a b : Nat × Nat} (h : ¬ pairLt a b) : pairLe b a := by
  unfold pairLt at h; unfold pairLe; omega

theorem queue_pop_eq_none {q : List QEntry} (h : queue_pop q = none) : q = [] := by
  cases q with
  | nil => rfl
  | cons a rest =>
    cases hr : queue_pop rest with
    | none => simp only [queue_pop, hr] at h; exact Option.noConfusion h
    | some p =>
      obtain ⟨m, rest'⟩ := p
      simp only [queue_pop, hr] at h
      split at h <;> simp at h

theorem queue_pop_spec :
    ∀ (q : List QEntry) (e : QEntry) (q' : List QEntry), queue_pop q = some (e, q') →
      e ∈ q ∧ (∀ x ∈ q', x ∈ q) ∧ (∀ x ∈ q', pairLe e.2 x.2) ∧
        (∀ x ∈ q, x = e ∨ x ∈ q') ∧ q'.length + 1 = q.length := by
  intro q
  induction q with
  | nil => intro e q' h; simp [queue_pop] at h
  | cons a rest ih =>
    intro e q' h
    cases hr : queue_pop rest with
    | none =>
      simp only [queue_pop, hr] at h
      have hrest := queue_pop_eq_none hr
      subst hrest
      simp only [Option.some.injEq, Prod.mk.injEq] at h
      obtain ⟨rfl, rfl⟩ := h
      exact ⟨List.mem_cons_self _ _, by simp, by simp, by simp, by simp⟩
    | some p =>
      obtain ⟨m, rest'⟩ := p
      simp only [queue_pop, hr] at h
      obtain ⟨hm_mem, hsub, hmin, hcov, hlen⟩ := ih m rest' hr
      split at h
      · next hlt =>
        simp only [Option.some.injEq, Prod.mk.injEq] at h
        obtain ⟨rfl, rfl⟩ := h
        refine ⟨List.mem_cons_of_mem _ hm_mem, ?_, ?_, ?_,
          by simp only [List.length_cons]; omega⟩
        · intro x hx
          rcases List.mem_cons.mp hx with hx | hx
          · exact hx ▸ List.mem_cons_self _ _
          · exact List.mem_cons_of_mem _ (hsub x hx)
        · intro x hx
          rcases List.mem_cons.mp hx with hx | hx
          · exact hx ▸ pairLe_of_pairLt hlt
          · exact hmin x hx
        · intro x hx
          rcases List.mem_cons.mp hx with hx | hx
          · exact Or.inr (hx ▸ List.mem_cons_self _ _)
          · rcases hcov x hx with hx' | hx'
            · exact Or.inl hx'
            · exact Or.inr (List.mem_cons_of_mem _ hx')
      · next hnlt =>
        simp only [Option.some.injEq, Prod.mk.injEq] at h
        obtain ⟨rfl, rfl⟩ := h
        refine ⟨List.mem_cons_self _ _, fun x hx => List.mem_cons_of_mem _ hx, ?_,
          fun x hx => List.mem_cons.mp hx, rfl⟩
        intro x hx
        rcases hcov x hx with hx' | hx'
        · exact hx' ▸ pairLe_of_not_pairLt hnlt
        · exact pairLe_trans (pairLe_of_not_pairLt hnlt) (hmin x hx')

theorem queue_pop_all_chain (fuel : Nat) :
    ∀ q : List QEntry, List.Chain' (fun a b : QEntry => pairLe a.2 b.2) (queue_pop_all fuel q) := by
  induction fuel with
  | zero => intro q; simp [queue_pop_all]
  | succ fuel ih =>
    intro q
    unfold queue_pop_all
    cases hp : queue_pop q with
    | none => simp
    | some p =>
      obtain ⟨e, q'⟩ := p
      rw [List.chain'_cons']
      refine ⟨?_, ih q'⟩
      intro b hb
      obtain ⟨_, _, hmin, _, _⟩ := queue_pop_spec q e q' hp
      cases fuel with
      | zero => simp [queue_pop_all] at hb
      | succ fuel' =>
        unfold queue_pop_all at hb
        cases hp' : queue_pop q' with
        | none => rw [hp'] at hb; simp at hb
        | some p' =>
          obtain ⟨e2, q''⟩ := p'
          rw [hp'] at hb
          simp only [List.head?_cons, Option.mem_def, Option.some.injEq] at hb
          subst hb
          obtain ⟨hmem2, _, _, _, _⟩ := queue_pop_spec q' e2 q'' hp'
          exact hmin e2 hmem2

/-- C1 (amended): the worker ready queue pops tasks in non-decreasing
lexicographic order of the priority pair `(user_priority,
internal_priority)` — smaller pair first. The queue's priority key is the
pair alone: equal pairs are returned in the queue's internal order, with no
`TaskId` tiebreak. -/
theorem c1_pop_sequence_sorted_by_priority_pair (q : List QEntry) :
    List.Chain' (fun a b : QEntry => pairLe a.2 b.2) (popAll q) :=
  queue_pop_all_chain q.length q

/-- C1 counterexample: two ready queues holding the same multiset of
tasks — ids `5` and `3`, both with priority pair `(0, 0)` — pop in
different orders, and the queue inserted as `[5, 3]` returns task `5`
before the smaller `TaskId` `3`: the pop order is not the strict total
order with `TaskId` as final tiebreaker, and the pop sequence is not
determined by the multiset of ready tasks. -/
theorem c1_counterexample_no_taskid_tiebreak :
    List.Perm [((5 : Nat), ((0 : Nat), (0 : Nat))), (3, (0, 0))] [(3, (0, 0)), (5, (0, 0))] ∧
    popAll [((5 : Nat), ((0 : Nat), (0 : Nat))), (3, (0, 0))] = [(5, (0, 0)), (3, (0, 0))] ∧
    popAll [((3 : Nat), ((0 : Nat), (0 : Nat))), (5, (0, 0))] = [(3, (0, 0)), (5, (0, 0))] := by
  refine ⟨?_, by decide, by decide⟩
  decide

/-- C8: `fetch_data` always sends `FetchRequest{task_id}`, and returns
`Ok` exactly when the peer answers with a frame decoding to
`Data(header)` followed by one more frame: the result is then the
remaining stream, the second frame's bytes, and `header.serializer`. A
`NotAvailable` response, a `DataUploaded` response, a frame that fails to
decode, and a connection closed before the response or before the body
frame all produce an error. -/
theorem c8_fetch_data_cases (task_id : Nat) (incoming : List Frame) :
    (fetch_data task_id incoming).1 = DataRequest.FetchRequest task_id ∧
    (∀ rest bytes ser, (fetch_data task_id incoming).2 = .ok (rest, bytes, ser) ↔
      ∃ f body, incoming = f :: body :: rest ∧ f.decoded = some (.Data ser) ∧
        bytes = body.payload) ∧
    (∀ f rest, incoming = f :: rest → f.decoded = some .NotAvailable →
      ∃ e, (fetch_data task_id incoming).2 = .error e) ∧
    (∀ f rest u, incoming = f :: rest → f.decoded = some (.DataUploaded u) →
      ∃ e, (fetch_data task_id incoming).2 = .error e) ∧
    (∀ f rest, incoming = f :: rest → f.decoded = none →
      ∃ e, (fetch_data task_id incoming).2 = .error e) ∧
    (incoming = [] → ∃ e, (fetch_data task_id incoming).2 = .error e) ∧
    (∀ f ser, incoming = [f] → f.decoded = some (.Data ser) →
      ∃ e, (fetch_data task_id incoming).2 = .error e) := by
  refine ⟨rfl, ?_, ?_, ?_, ?_, ?_, ?_⟩
  · intro rest bytes ser
    constructor
    · intro h
      match incoming with
      | [] => simp [fetch_data] at h
      | f :: tail =>
        match hf : f.decoded with
        | none => simp [fetch_data, hf] at h
        | some .NotAvailable => simp [fetch_data, hf] at h
        | some (.DataUploaded u) => simp [fetch_data, hf] at h
        | some (.Data ser') =>
          match tail with
          | [] => simp [fetch_data, hf] at h
          | body :: rest2 =>
            simp only [fetch_data, hf, Except.ok.injEq, Prod.mk.injEq] at h
            obtain ⟨h1, h2, h3⟩ := h
            exact ⟨f, body, by rw [h1], by rw [hf, h3], h2.symm⟩
    · rintro ⟨f, body, rfl, hdec, rfl⟩
      simp [fetch_data, hdec]
  · rintro f rest rfl hdec
    exact ⟨"Data object not available", by simp [fetch_data, hdec]⟩
  · rintro f rest u rfl hdec
    exact ⟨"Request returned invalid response", by simp [fetch_data, hdec]⟩
  · rintro f rest rfl hdec
    exact ⟨"deserialization failed", by simp [fetch_data, hdec]⟩
  · rintro rfl
    exact ⟨"Unexpected close of connection", by simp [fetch_data]⟩
  · rintro f ser rfl hdec
    exact ⟨"Unexpected close of connection", by simp [fetch_data, hdec]⟩

/-- C8 witness: at a concrete stream — a `Data` header frame followed by a
body frame — the fetch succeeds with the body bytes and the header's
serializer, and at the empty stream it errors. -/
theorem c8_fetch_data_cases_witness :
    (fetch_data 7 [⟨[], some (.Data 2)⟩, ⟨[9, 8], none⟩]).2 = .ok ([], [9, 8], 2) ∧
    ∃ e, (fetch_data 7 ([] : List Frame)).2 = .error e := by
  constructor
  · exact ((c8_fetch_data_cases 7 [⟨[], some (.Data 2)⟩, ⟨[9, 8], none⟩]).2.1 [] [9, 8] 2).mpr
      ⟨⟨[], some (.Data 2)⟩, ⟨[9, 8], none⟩, rfl, rfl, rfl⟩
  · exact (c8_fetch_data_cases 7 []).2.2.2.2.2.1 rfl

/-- C9: `--port` defaults to `8786`, `--scheduler` defaults to
workstealing; the scheduler argument accepts exactly `"workstealing"` and
`"random"` and errors on every other string. -/
theorem c9_cli_defaults_and_scheduler_strings :
    parse_port none = some 8786 ∧
    parse_scheduler none = .ok .Workstealing ∧
    SchedulerType.from_str "workstealing" = .ok .Workstealing ∧
    SchedulerType.from_str "random" = .ok .Random ∧
    ∀ s : String, s ≠ "workstealing" → s ≠ "random" →
      SchedulerType.from_str s = .error ("Scheduler " ++ s ++ " does not exist") := by
  refine ⟨by decide, rfl, rfl, rfl, ?_⟩
  intro s h1 h2
  simp [SchedulerType.from_str, h1, h2]

/-- C9 witness: the string `"foo"` is rejected with an error. -/
theorem c9_cli_witness :
    SchedulerType.from_str "foo" = .error ("Scheduler " ++ "foo" ++ " does not exist") :=
  c9_cli_defaults_and_scheduler_strings.2.2.2.2 "foo" (by decide) (by decide)

theorem lt_of_getq {α : Type} {l : List α} {i : Nat} {x : α} (h : l[i]? = some x) :
    i < l.length := by
  by_contra hn
  push_neg at hn
  rw [List.getElem?_eq_none hn] at h
  exact Option.noConfusion h

theorem lookupM_eraseM_self {α : Type} (m : List (Nat × α)) (k : Nat) :
    lookupM (eraseM m k) k = none := by
  induction m with
  | nil => rfl
  | cons p rest ih =>
    unfold eraseM
    by_cases hp : p.1 = k
    · simp [hp, ih]
    · simp [hp, lookupM, ih]

theorem lookupM_eraseM_ne {α : Type} (m : List (Nat × α)) (k k' : Nat) (h : k ≠ k') :
    lookupM (eraseM m k) k' = lookupM m k' := by
  induction m with
  | nil => rfl
  | cons p rest ih =>
    unfold eraseM
    by_cases hp : p.1 = k
    · have hne : p.1 ≠ k' := by omega
      simp [hp, lookupM, hne, ih, h]
    · by_cases hp' : p.1 = k'
      · simp [hp, lookupM, hp', Ne.symm h]
      · simp [hp, lookupM, hp', ih]

theorem getq_set_self {α : Type} {l : List α} {i : Nat} (a : α) (h : i < l.length) :
    (l.set i a)[i]? = some a := by
  rw [List.getElem?_set_self', List.getElem?_eq_getElem h]
  rfl

theorem getq_set_ne {α : Type} {l : List α} {i j : Nat} (a : α) (h : i ≠ j) :
    (l.set i a)[j]? = l[j]? :=
  List.getElem?_set_ne h

theorem lookupM_insertM_self {α : Type} (m : List (Nat × α)) (k : Nat) (v : α) :
    lookupM (insertM m k v) k = some v := by
  simp [insertM, lookupM]

theorem lookupM_insertM_ne {α : Type} (m : List (Nat × α)) (k k' : Nat) (v : α) (h : k ≠ k') :
    lookupM (insertM m k v) k' = lookupM m k' := by
  simp only [insertM, lookupM, if_neg h]
  exact lookupM_eraseM_ne m k k' h

/-- C7: when `remove_data(id)` finds the object, the non-panic path is
taken exactly when the consumer set is empty: the object then leaves
`data_objects` and its state becomes `Removed`; a remaining consumer hits
the `todo!()` abort (`none`). -/
theorem c7_remove_data_panics_iff_consumers (s : WorkerState) (task_id dref : Nat)
    (o : DataObject) (h1 : lookupM s.data_map task_id = some dref)
    (h2 : s.dobjs[dref]? = some o) :
    (o.consumers = [] →
      remove_data s task_id =
        some { s with data_map := eraseM s.data_map task_id,
                      dobjs := s.dobjs.set dref { o with state := .Removed } } ∧
      lookupM (eraseM s.data_map task_id) task_id = none ∧
      (s.dobjs.set dref { o with state := .Removed })[dref]? =
        some { o with state := .Removed }) ∧
    (o.consumers ≠ [] → remove_data s task_id = none) := by
  constructor
  · intro hc
    refine ⟨?_, lookupM_eraseM_self _ _, getq_set_self _ (lt_of_getq h2)⟩
    simp [remove_data, h1, h2, hc]
  · intro hc
    simp [remove_data, h1, h2, List.isEmpty_iff, hc]

/-- C7 witness: a state holding one consumer-free data object: the call
removes it from the map and marks it `Removed`. -/
theorem c7_remove_data_witness :
    remove_data ⟨[], [⟨4, 1, .Lcl [7] 0, []⟩], [], [(4, 0)], [], [], [], [], []⟩ 4 =
      some ⟨[], [⟨4, 1, .Removed, []⟩], [], [], [], [], [], [], []⟩ ∧
    remove_data ⟨[], [⟨4, 1, .Lcl [7] 0, [2]⟩], [], [(4, 0)], [], [], [], [], []⟩ 4 = none := by
  constructor
  · have h := (c7_remove_data_panics_iff_consumers
      ⟨[], [⟨4, 1, .Lcl [7] 0, []⟩], [], [(4, 0)], [], [], [], [], []⟩ 4 0
      ⟨4, 1, .Lcl [7] 0, []⟩ (by rfl) (by rfl)).1 rfl
    exact h.1
  · exact (c7_remove_data_panics_iff_consumers
      ⟨[], [⟨4, 1, .Lcl [7] 0, [2]⟩], [], [(4, 0)], [], [], [], [], []⟩ 4 0
      ⟨4, 1, .Lcl [7] 0, [2]⟩ (by rfl) (by rfl)).2 (by simp)

/-- C10: a steal answered `NotHere` or `Running` leaves the worker state
exactly unchanged; only the `Ok` outcome mutates it. -/
theorem c10_steal_no_effect_unless_ok (s : WorkerState) (task_id : Nat) (r : StealResponse)
    (s' : WorkerState) (h : steal_task s task_id = some (r, s'))
    (hr : r = .NotHere ∨ r = .Running) : s' = s := by
  unfold steal_task at h
  cases hl : lookupM s.task_map task_id with
  | none =>
    simp only [hl, Option.some.injEq, Prod.mk.injEq] at h
    exact h.2.symm
  | some tref =>
    simp only [hl] at h
    cases hg : s.wtasks[tref]? with
    | none => simp only [hg] at h; exact Option.noConfusion h
    | some t =>
      simp only [hg] at h
      cases hst : t.state with
      | Waiting n =>
        simp only [hst, Option.map_eq_some'] at h
        obtain ⟨s'', hrm, heq⟩ := h
        rcases hr with rfl | rfl <;> simp at heq
      | Running sub =>
        simp only [hst, Option.some.injEq, Prod.mk.injEq] at h
        exact h.2.symm
      | Removed =>
        simp only [hst, Option.some.injEq, Prod.mk.injEq] at h
        exact h.2.symm

/-- C10 witness: stealing an id absent from an empty worker state answers
`NotHere` and leaves the state unchanged. -/
theorem c10_steal_no_effect_witness :
    steal_task initState 5 = some (.NotHere, initState) ∧ initState = initState :=
  ⟨rfl, c10_steal_no_effect_unless_ok initState 5 .NotHere initState rfl (Or.inl rfl)⟩

/-- How `try_start_tasks` can evolve one task: all fields but the state
are preserved, and the state either stays or goes from `Waiting` to
`Running`. -/
def task_evolve (t t' : WTask) : Prop :=
  t'.id = t.id ∧ t'.priority = t.priority ∧ t'.deps = t.deps ∧
    (t'.state = t.state ∨ ∃ n sub, t.state = .Waiting n ∧ t'.state = .Running sub)

theorem task_evolve_refl (t : WTask) : task_evolve t t :=
  ⟨rfl, rfl, rfl, Or.inl rfl⟩

/-- The state components `try_start_tasks` leaves alone, together with the
per-task evolution. -/
def start_evolve (s s' : WorkerState) : Prop :=
  s'.dobjs = s.dobjs ∧ s'.data_map = s.data_map ∧ s'.task_map = s.task_map ∧
    s'.msgs = s.msgs ∧ s'.downloads = s.downloads ∧
    s'.wtasks.length = s.wtasks.length ∧
    ∀ (tref : Nat) (t' : WTask), s'.wtasks[tref]? = some t' →
      ∃ t, s.wtasks[tref]? = some t ∧ task_evolve t t'

theorem start_evolve_refl (s : WorkerState) : start_evolve s s :=
  ⟨rfl, rfl, rfl, rfl, rfl, rfl, fun _ t' h => ⟨t', h, task_evolve_refl t'⟩⟩

theorem start_evolve_trans {s1 s2 s3 : WorkerState} (h1 : start_evolve s1 s2)
    (h2 : start_evolve s2 s3) : start_evolve s1 s3 := by
  obtain ⟨d1, m1, tm1, g1, w1, l1, e1⟩ := h1
  obtain ⟨d2, m2, tm2, g2, w2, l2, e2⟩ := h2
  refine ⟨d2.trans d1, m2.trans m1, tm2.trans tm1, g2.trans g1, w2.trans w1, l2.trans l1, ?_⟩
  intro tref t3 h3
  obtain ⟨t2, h2', ⟨i2, p2, dp2, st2⟩⟩ := e2 tref t3 h3
  obtain ⟨t1, h1', ⟨i1, p1, dp1, st1⟩⟩ := e1 tref t2 h2'
  refine ⟨t1, h1', i2.trans i1, p2.trans p1, dp2.trans dp1, ?_⟩
  rcases st2 with st2 | ⟨n, sub, hw, hr⟩
  · rcases st1 with st1 | ⟨n, sub, hw, hr⟩
    · exact Or.inl (st2.trans st1)
    · exact Or.inr ⟨n, sub, hw, st2.trans hr⟩
  · rcases st1 with st1 | ⟨n', sub', hw', hr'⟩
    · exact Or.inr ⟨n, sub, st1 ▸ hw, hr⟩
    · rw [hr'] at hw; exact absurd hw (by simp)

theorem try_start_loop_evolve (fuel : Nat) :
    ∀ s s', try_start_loop fuel s = some s' → start_evolve s s' := by
  induction fuel with
  | zero =>
    intro s s' h
    simp only [try_start_loop, Option.some.injEq] at h
    exact h ▸ start_evolve_refl s
  | succ fuel ih =>
    intro s s' h
    unfold try_start_loop at h
    cases hp : queue_pop s.ready_queue with
    | none =>
      simp only [hp, Option.some.injEq] at h
      exact h ▸ start_evolve_refl s
    | some p =>
      obtain ⟨⟨tref0, prio0⟩, q'⟩ := p
      simp only [hp] at h
      cases hl : s.free_subworkers.getLast? with
      | none => simp only [hl] at h; exact Option.noConfusion h
      | some swid =>
        simp only [hl] at h
        cases hg : s.wtasks[tref0]? with
        | none => simp only [hg] at h; exact Option.noConfusion h
        | some t =>
          simp only [hg] at h
          cases hst : t.state with
          | Waiting n =>
            simp only [hst] at h
            cases hsw : lookupM s.subworkers swid with
            | none => simp only [hsw] at h; exact Option.noConfusion h
            | some r =>
              cases r with
              | some x => simp only [hsw] at h; exact Option.noConfusion h
              | none =>
                simp only [hsw] at h
                have hstep : ∀ s1 : WorkerState,
                    s1 = { s with
                      wtasks := s.wtasks.set tref0 { t with state := .Running swid },
                      free_subworkers := s.free_subworkers.dropLast,
                      subworkers := insertM s.subworkers swid (some tref0),
                      ready_queue := q' } → start_evolve s s1 := by
                  intro s1 hs1
                  subst hs1
                  refine ⟨rfl, rfl, rfl, rfl, rfl, by simp, ?_⟩
                  intro tref t' h'
                  by_cases he : tref0 = tref
                  · subst he
                    rw [getq_set_self _ (lt_of_getq hg)] at h'
                    obtain rfl := Option.some.inj h'
                    exact ⟨t, hg, rfl, rfl, rfl, Or.inr ⟨n, swid, hst, rfl⟩⟩
                  · rw [getq_set_ne _ he] at h'
                    exact ⟨t', h', task_evolve_refl t'⟩
                split at h
                · simp only [Option.some.injEq] at h
                  exact h ▸ hstep _ rfl
                · exact start_evolve_trans (hstep _ rfl) (ih _ _ h)
          | Running sub => simp only [hst] at h; exact Option.noConfusion h
          | Removed => simp only [hst] at h; exact Option.noConfusion h

theorem try_start_tasks_evolve {s s' : WorkerState} (h : try_start_tasks s = some s') :
    start_evolve s s' := by
  unfold try_start_tasks at h
  split at h
  · simp only [Option.some.injEq] at h
    exact h ▸ start_evolve_refl s
  · exact try_start_loop_evolve _ _ _ h

/-- `try_start_tasks` is the identity when no subworker is free. -/
theorem try_start_tasks_no_free {s : WorkerState} (h : s.free_subworkers = []) :
    try_start_tasks s = some s := by
  unfold try_start_tasks
  rw [if_pos (by simp [h])]

theorem add_ready_task_evolve {s s' : WorkerState} {tref : Nat}
    (h : add_ready_task s tref = some s') :
    s'.dobjs = s.dobjs ∧ s'.data_map = s.data_map ∧ s'.task_map = s.task_map ∧
      s'.msgs = s.msgs ∧ s'.downloads = s.downloads ∧
      s'.wtasks.length = s.wtasks.length ∧
      ∀ (r : Nat) (t' : WTask), s'.wtasks[r]? = some t' →
        ∃ t, s.wtasks[r]? = some t ∧ task_evolve t t' := by
  unfold add_ready_task at h
  cases hg : s.wtasks[tref]? with
  | none => simp only [hg] at h; exact Option.noConfusion h
  | some t =>
    simp only [hg] at h
    exact @try_start_tasks_evolve
      { s with ready_queue := queue_push s.ready_queue tref t.priority } s' h

/-- Whether a data object state is `Remote`. -/
def DState.isRemote : DState → Bool
  | .Remote _ => true
  | _ => false

/-- The fields `remove_deps` never touches, and the length of the object
heap it preserves. -/
theorem remove_deps_frame :
    ∀ (pending : List Nat) (s : WorkerState) (tref : Nat) (jf : Bool) (s' : WorkerState),
      remove_deps s tref jf pending = some s' →
      s'.wtasks = s.wtasks ∧ s'.task_map = s.task_map ∧ s'.data_map = s.data_map ∧
        s'.msgs = s.msgs ∧ s'.downloads = s.downloads ∧ s'.ready_queue = s.ready_queue ∧
        s'.free_subworkers = s.free_subworkers ∧ s'.subworkers = s.subworkers ∧
        s'.dobjs.length = s.dobjs.length := by
  intro pending
  induction pending with
  | nil =>
    intro s tref jf s' h
    simp only [remove_deps, Option.some.injEq] at h
    subst h
    exact ⟨rfl, rfl, rfl, rfl, rfl, rfl, rfl, rfl, rfl⟩
  | cons d0 rest ih =>
    intro s tref jf s' h
    unfold remove_deps at h
    cases hg : s.dobjs[d0]? with
    | none => simp only [hg] at h; exact Option.noConfusion h
    | some o =>
      simp only [hg] at h
      split at h
      · split at h
        · exact Option.noConfusion h
        · next st' heq =>
          obtain ⟨w, tm, dm, ms, dl, rq, fs, sw, ln⟩ := ih _ _ _ _ h
          exact ⟨w, tm, dm, ms, dl, rq, fs, sw, by simpa using ln⟩
      · exact Option.noConfusion h

/-- What `remove_deps` does to the objects of `pending` (given distinct
entries): the task leaves every consumer set; an emptied consumer set with
a `Remote` state becomes `Removed`, and that combination forces
`just_finished = false` (the `assert!(!just_finished)`). Objects outside
`pending` are untouched. -/
theorem remove_deps_spec :
    ∀ (pending : List Nat) (s : WorkerState) (tref : Nat) (jf : Bool) (s' : WorkerState),
      remove_deps s tref jf pending = some s' → pending.Nodup →
      (∀ d : Nat, d ∉ pending → s'.dobjs[d]? = s.dobjs[d]?) ∧
      (∀ (d : Nat) (o : DataObject), d ∈ pending → s.dobjs[d]? = some o →
        tref ∈ o.consumers ∧
        s'.dobjs[d]? = some { o with
          consumers := o.consumers.filter (fun c => c ≠ tref),
          state := if ((o.consumers.filter (fun c => c ≠ tref)).isEmpty &&
                      o.state.isRemote) = true
                   then .Removed else o.state } ∧
        (((o.consumers.filter (fun c => c ≠ tref)).isEmpty && o.state.isRemote) = true →
          jf = false)) := by
  intro pending
  induction pending with
  | nil =>
    intro s tref jf s' h _
    simp only [remove_deps, Option.some.injEq] at h
    subst h
    exact ⟨fun _ _ => rfl, fun d o hd => absurd hd (List.not_mem_nil d)⟩
  | cons d0 rest ih =>
    intro s tref jf s' h hnd
    have hd0r : d0 ∉ rest := (List.nodup_cons.mp hnd).1
    have hndr : rest.Nodup := (List.nodup_cons.mp hnd).2
    unfold remove_deps at h
    cases hg : s.dobjs[d0]? with
    | none => simp only [hg] at h; exact Option.noConfusion h
    | some o0 =>
      simp only [hg] at h
      split at h
      · next hmem =>
        split at h
        · exact Option.noConfusion h
        · next st' heq =>
          set cs := o0.consumers.filter (fun c => c ≠ tref) with hcs
          set smid : WorkerState :=
            { s with dobjs := s.dobjs.set d0 { o0 with consumers := cs, state := st' } }
            with hsmid
          obtain ⟨hout, hin⟩ := ih smid tref jf s' h hndr
          -- the state rule satisfied by st', extracted from the match
          have hrule : st' = (if (cs.isEmpty && o0.state.isRemote) = true
              then .Removed else o0.state) ∧
              ((cs.isEmpty && o0.state.isRemote) = true → jf = false) := by
            by_cases hemp : cs.isEmpty
            · rw [if_pos hemp] at heq
              cases hos : o0.state with
              | Remote ws =>
                rw [hos] at heq
                cases hjf : jf
                · rw [hjf] at heq
                  simp only [if_neg (by simp : ¬ (false = true)), Option.some.injEq] at heq
                  constructor
                  · rw [← heq, if_pos (by simp [hemp, hos, DState.isRemote])]
                  · intro _; rfl
                · rw [hjf] at heq; simp at heq
              | Lcl b sr =>
                rw [hos] at heq
                obtain rfl := Option.some.inj heq
                constructor
                · rw [if_neg (by simp [hos, DState.isRemote])]
                · intro hx; simp [DState.isRemote] at hx
              | Removed =>
                rw [hos] at heq
                obtain rfl := Option.some.inj heq
                constructor
                · rw [if_neg (by simp [hos, DState.isRemote])]
                · intro hx; simp [DState.isRemote] at hx
            · rw [if_neg hemp] at heq
              obtain rfl := Option.some.inj heq
              constructor
              · rw [if_neg (by simp [hemp])]
              · intro hx; simp [hemp] at hx
          refine ⟨?_, ?_⟩
          · intro d hd
            have hne : d ≠ d0 := fun he => hd (he ▸ List.mem_cons_self d0 rest)
            have hnr : d ∉ rest := fun hr => hd (List.mem_cons_of_mem d0 hr)
            rw [hout d hnr]
            exact getq_set_ne _ (fun he => hne he.symm)
          · intro d o hd hgd
            rcases List.mem_cons.mp hd with rfl | hdr
            · -- d = d0
              rw [hg] at hgd
              obtain rfl := Option.some.inj hgd
              refine ⟨hmem, ?_, hrule.2⟩
              rw [hout d hd0r, getq_set_self _ (lt_of_getq hg), hrule.1]
            · -- d ∈ rest
              have hne : d ≠ d0 := fun he => hd0r (he ▸ hdr)
              have hmid : smid.dobjs[d]? = some o := by
                rw [hsmid]
                show (s.dobjs.set d0 _)[d]? = some o
                rw [getq_set_ne _ (fun he => hne he.symm)]
                exact hgd
              exact hin d o hdr hmid
      · exact Option.noConfusion h

/-- Objects outside `pending` are untouched by `remove_deps`. -/
theorem remove_deps_outside :
    ∀ (pending : List Nat) (s : WorkerState) (tref : Nat) (jf : Bool) (s' : WorkerState),
      remove_deps s tref jf pending = some s' →
      ∀ d : Nat, d ∉ pending → s'.dobjs[d]? = s.dobjs[d]? := by
  intro pending
  induction pending with
  | nil =>
    intro s tref jf s' h d _
    simp only [remove_deps, Option.some.injEq] at h
    subst h
    rfl
  | cons d0 rest ih =>
    intro s tref jf s' h d hd
    have hne : d ≠ d0 := fun he => hd (he ▸ List.mem_cons_self d0 rest)
    have hnr : d ∉ rest := fun hr => hd (List.mem_cons_of_mem d0 hr)
    unfold remove_deps at h
    cases hg : s.dobjs[d0]? with
    | none => simp only [hg] at h; exact Option.noConfusion h
    | some o0 =>
      simp only [hg] at h
      split at h
      · split at h
        · exact Option.noConfusion h
        · next st' heq =>
          rw [ih _ tref jf s' h d hnr]
          exact getq_set_ne _ (fun he => hne he.symm)
      · exact Option.noConfusion h

theorem queue_remove_not_contains (q : List QEntry) (tref : Nat) :
    queue_contains (queue_remove q tref) tref = false := by
  induction q with
  | nil => rfl
  | cons e rest ih =>
    by_cases he : e.1 = tref
    · simp only [queue_remove, queue_contains, List.filter_cons] at ih ⊢
      simp [he, ih]
    · simp only [queue_remove, queue_contains, List.filter_cons] at ih ⊢
      simp [he, ih]

/-- What a successful `remove_task_core` (the part of `remove_task` after
the task-state `match`) does: the task becomes `Removed` with cleared
deps, its id leaves the task map, and the dependencies are cleaned up as
`remove_deps` describes. -/
theorem remove_task_core_spec (s0 : WorkerState) (tref : Nat) (t : WTask) (jf : Bool)
    (s' : WorkerState) (hlen : tref < s0.wtasks.length)
    (h : remove_task_core s0 tref t jf = some s') :
    s'.wtasks[tref]? = some { t with state := .Removed, deps := [] } ∧
    (∀ r : Nat, r ≠ tref → s'.wtasks[r]? = s0.wtasks[r]?) ∧
    lookupM s'.task_map t.id = none ∧
    (∀ k : Nat, k ≠ t.id → lookupM s'.task_map k = lookupM s0.task_map k) ∧
    s'.data_map = s0.data_map ∧ s'.msgs = s0.msgs ∧ s'.downloads = s0.downloads ∧
    s'.free_subworkers = s0.free_subworkers ∧ s'.subworkers = s0.subworkers ∧
    s'.ready_queue = s0.ready_queue ∧
    s'.dobjs.length = s0.dobjs.length ∧
    (∀ d : Nat, d ∉ t.deps → s'.dobjs[d]? = s0.dobjs[d]?) ∧
    (t.deps.Nodup → ∀ (d : Nat) (o : DataObject), d ∈ t.deps → s0.dobjs[d]? = some o →
      tref ∈ o.consumers ∧
      s'.dobjs[d]? = some { o with
        consumers := o.consumers.filter (fun c => c ≠ tref),
        state := if ((o.consumers.filter (fun c => c ≠ tref)).isEmpty &&
                    o.state.isRemote) = true then .Removed else o.state } ∧
      (((o.consumers.filter (fun c => c ≠ tref)).isEmpty && o.state.isRemote) = true →
        jf = false)) := by
  simp only [remove_task_core] at h
  cases hl : lookupM s0.task_map t.id with
  | none => simp only [hl] at h; exact Option.noConfusion h
  | some tref0 =>
    simp only [hl] at h
    obtain ⟨hw, htm, hdm, hms, hdl, hrq, hfs, hsw, hln⟩ :=
      remove_deps_frame t.deps _ tref jf s' h
    refine ⟨?_, ?_, ?_, ?_, hdm, hms, hdl, hfs, hsw, hrq, hln, ?_, ?_⟩
    · rw [hw]; exact getq_set_self _ hlen
    · intro r hr
      rw [hw]; exact getq_set_ne _ (fun he => hr he.symm)
    · rw [htm]; exact lookupM_eraseM_self _ _
    · intro k hk
      rw [htm]; exact lookupM_eraseM_ne _ _ _ (fun he => hk he.symm)
    · intro d hd
      exact remove_deps_outside t.deps _ tref jf s' h d hd
    · intro hnd
      exact (remove_deps_spec t.deps _ tref jf s' h hnd).2

/-- What a successful `remove_task` does, including the guards of the
task-state `match`: a `Waiting` task requires `just_finished = false`
(and, at count zero, presence in the ready queue, which it leaves); a
`Running` task requires `just_finished = true`; a `Removed` task panics. -/
theorem remove_task_spec (s : WorkerState) (tref : Nat) (t : WTask) (jf : Bool)
    (s' : WorkerState) (hg : s.wtasks[tref]? = some t)
    (h : remove_task s tref jf = some s') :
    (∀ n, t.state = .Waiting n → jf = false) ∧
    (∀ sub, t.state = .Running sub → jf = true) ∧
    t.state ≠ .Removed ∧
    s'.wtasks[tref]? = some { t with state := .Removed, deps := [] } ∧
    (∀ r : Nat, r ≠ tref → s'.wtasks[r]? = s.wtasks[r]?) ∧
    lookupM s'.task_map t.id = none ∧
    (∀ k : Nat, k ≠ t.id → lookupM s'.task_map k = lookupM s.task_map k) ∧
    s'.data_map = s.data_map ∧ s'.msgs = s.msgs ∧ s'.downloads = s.downloads ∧
    s'.free_subworkers = s.free_subworkers ∧ s'.subworkers = s.subworkers ∧
    (t.state = .Waiting 0 → queue_contains s'.ready_queue tref = false) ∧
    (t.state ≠ .Waiting 0 → s'.ready_queue = s.ready_queue) ∧
    s'.dobjs.length = s.dobjs.length ∧
    (∀ d : Nat, d ∉ t.deps → s'.dobjs[d]? = s.dobjs[d]?) ∧
    (t.deps.Nodup → ∀ (d : Nat) (o : DataObject), d ∈ t.deps → s.dobjs[d]? = some o →
      tref ∈ o.consumers ∧
      s'.dobjs[d]? = some { o with
        consumers := o.consumers.filter (fun c => c ≠ tref),
        state := if ((o.consumers.filter (fun c => c ≠ tref)).isEmpty &&
                    o.state.isRemote) = true then .Removed else o.state } ∧
      (((o.consumers.filter (fun c => c ≠ tref)).isEmpty && o.state.isRemote) = true →
        jf = false)) := by
  unfold remove_task at h
  rw [hg] at h
  cases hst : t.state with
  | Waiting x =>
    simp only [hst] at h
    cases hjf : jf with
    | true => rw [hjf] at h; simp at h
    | false =>
      rw [hjf, if_neg (by simp : ¬ (false = true))] at h
      by_cases hx : (x == 0) = true
      · rw [if_pos hx] at h
        obtain rfl : x = 0 := by simpa using hx
        cases hq : queue_contains s.ready_queue tref with
        | false => rw [hq] at h; simp at h
        | true =>
          rw [hq, if_pos rfl] at h
          obtain ⟨c1, c2, c3, c4, c5, c6, c7, c8, c9, c10, c11, c12, c13⟩ :=
            remove_task_core_spec _ tref t false s' (by simpa using lt_of_getq hg) h
          refine ⟨fun _ _ => rfl, fun sub hsub => TState.noConfusion hsub, by simp,
            c1, c2, c3, c4, c5, c6, c7, c8, c9,
            fun _ => ?_, fun hne => absurd rfl hne, c11, c12, c13⟩
          rw [c10]
          exact queue_remove_not_contains s.ready_queue tref
      · rw [if_neg hx] at h
        obtain ⟨c1, c2, c3, c4, c5, c6, c7, c8, c9, c10, c11, c12, c13⟩ :=
          remove_task_core_spec s tref t false s' (lt_of_getq hg) h
        refine ⟨fun _ _ => rfl, fun sub hsub => TState.noConfusion hsub, by simp,
          c1, c2, c3, c4, c5, c6, c7, c8, c9,
          fun hw0 => ?_, fun _ => c10, c11, c12, c13⟩
        exact absurd (by simpa using hw0) (by simpa using hx)
  | Running sub =>
    simp only [hst] at h
    cases hjf : jf with
    | false => rw [hjf] at h; simp at h
    | true =>
      rw [hjf, if_pos rfl] at h
      obtain ⟨c1, c2, c3, c4, c5, c6, c7, c8, c9, c10, c11, c12, c13⟩ :=
        remove_task_core_spec s tref t true s' (lt_of_getq hg) h
      exact ⟨fun n hn => TState.noConfusion hn, fun _ _ => rfl, by simp,
        c1, c2, c3, c4, c5, c6, c7, c8, c9,
        fun hw0 => TState.noConfusion hw0, fun _ => c10, c11, c12, c13⟩
  | Removed =>
    simp only [hst] at h
    exact Option.noConfusion h

/-- C5 counterexample: a `Running` task whose single dependency is still
`Remote` with the task as its only consumer. Removing the task with
`just_finished = true` hits the `assert!(!just_finished)` (the call
panics, `none`): the dependency does not transition to `Removed` — no
post-state exists at all. The claimed collapse belongs to the
`just_finished = false` path. -/
theorem c5_counterexample_just_finished_asserts :
    remove_task ⟨[⟨0, (0, 0), [0], .Running 0⟩], [⟨0, 1, .Remote [1], [0]⟩],
      [(0, 0)], [(0, 0)], [], [], [(0, some 0)], [], []⟩ 0 true = none := by
  rfl

/-- C5 (amended): when a task is removed with `just_finished = false`
(steal/cancel), every dependency from which it was the last consumer and
whose state is still `Remote` transitions to `Removed`, and `Local`
dependencies keep their state; a removal with `just_finished = true`
(the just-finished path) cannot leave behind a last-consumer `Remote`
dependency — the `assert!(!just_finished)` makes that combination a
panic, so it never holds on the success path — while `Local`
dependencies keep their state there as well. -/
theorem c5_remove_task_dep_collapse (s : WorkerState) (tref : Nat) (t : WTask)
    (jf : Bool) (s' : WorkerState) (hg : s.wtasks[tref]? = some t)
    (hnd : t.deps.Nodup) (h : remove_task s tref jf = some s') :
    ∀ (d : Nat) (o : DataObject), d ∈ t.deps → s.dobjs[d]? = some o →
      (jf = false → o.consumers.filter (fun c => c ≠ tref) = [] →
        ∀ ws, o.state = .Remote ws →
          ∃ o', s'.dobjs[d]? = some o' ∧ o'.state = .Removed) ∧
      (∀ b sr, o.state = .Lcl b sr →
        ∃ o', s'.dobjs[d]? = some o' ∧ o'.state = .Lcl b sr) ∧
      (jf = true → o.consumers.filter (fun c => c ≠ tref) = [] →
        ∀ ws, o.state ≠ .Remote ws) := by
  intro d o hd hgd
  obtain ⟨_, _, _, _, _, _, _, _, _, _, _, _, _, _, _, _, hdeps⟩ :=
    remove_task_spec s tref t jf s' hg h
  obtain ⟨hmem, hset, hjf⟩ := hdeps hnd d o hd hgd
  refine ⟨?_, ?_, ?_⟩
  · intro hjff hemp ws hws
    refine ⟨_, hset, ?_⟩
    simp only [hemp, hws]
    rw [if_pos (by simp [DState.isRemote])]
  · intro b sr hws
    refine ⟨_, hset, ?_⟩
    simp only [hws]
    rw [if_neg (by simp [DState.isRemote])]
  · intro hjft hemp ws hws
    have : jf = false := hjf (by rw [hemp, hws]; rfl)
    rw [hjft] at this
    exact Bool.noConfusion this

/-- The C5 witness start state: a `Waiting(1)` task with one `Remote`
dependency of which it is the only consumer. -/
def c5ws : WorkerState :=
  ⟨[⟨0, (0, 0), [0], .Waiting 1⟩], [⟨0, 1, .Remote [1], [0]⟩],
    [(0, 0)], [(0, 0)], [], [], [], [], []⟩

/-- The state after removing the C5 witness task with
`just_finished = false`. -/
def c5ws' : WorkerState :=
  ⟨[⟨0, (0, 0), [], .Removed⟩], [⟨0, 1, .Removed, []⟩], [], [(0, 0)], [], [], [], [], []⟩

/-- C5 witness for the amended theorem: removing the task with
`just_finished = false` (the steal path) collapses the dependency's
object to `Removed`. -/
theorem c5_remove_task_dep_collapse_witness :
    remove_task c5ws 0 false = some c5ws' ∧
    ∃ o', c5ws'.dobjs[0]? = some o' ∧ o'.state = .Removed := by
  refine ⟨rfl, ?_⟩
  obtain ⟨o', ho1, ho2⟩ :=
    (c5_remove_task_dep_collapse c5ws 0 ⟨0, (0, 0), [0], .Waiting 1⟩ false c5ws'
      rfl (by simp) rfl 0 ⟨0, 1, .Remote [1], [0]⟩ (by simp) rfl).1 rfl (by rfl) [1] rfl
  exact ⟨o', ho1, ho2⟩

/-- Repeated steal requests for the same id, collecting the responses. -/
def steal_n : Nat → WorkerState → Nat → Option (List StealResponse × WorkerState)
  | 0, s, _ => some ([], s)
  | k + 1, s, task_id =>
    match steal_task s task_id with
    | none => none
    | some (r, s') =>
      match steal_n k s' task_id with
      | none => none
      | some (rs, s'') => some (r :: rs, s'')

theorem steal_n_absent (k : Nat) :
    ∀ (s : WorkerState) (task_id : Nat), lookupM s.task_map task_id = none →
      steal_n k s task_id = some (List.replicate k .NotHere, s) := by
  induction k with
  | zero => intro s tid _; rfl
  | succ k ih =>
    intro s tid h
    have hs : steal_task s tid = some (.NotHere, s) := by
      unfold steal_task; rw [h]
    simp only [steal_n, hs, ih s tid h, List.replicate_succ]

/-- C3: `steal_task(id)` answers `NotHere` when the id is absent or the
task is already `Removed`, `Running` when it runs, and otherwise removes
the `Waiting` task — marking it `Removed`, dropping it from the ready
queue when its count is zero, erasing its map entry — and answers `Ok`;
after that, any number of repeated steals of the same id all answer
`NotHere`, so a steal sequence produces at most one `Ok`. -/
theorem c3_steal_task_outcomes (s : WorkerState) (task_id : Nat) :
    (lookupM s.task_map task_id = none → steal_task s task_id = some (.NotHere, s)) ∧
    (∀ (tref : Nat) (t : WTask), lookupM s.task_map task_id = some tref →
      s.wtasks[tref]? = some t →
      (t.state = .Removed → steal_task s task_id = some (.NotHere, s)) ∧
      (∀ sub, t.state = .Running sub → steal_task s task_id = some (.Running, s)) ∧
      (∀ n, t.state = .Waiting n → t.id = task_id →
        ∀ res, steal_task s task_id = some res →
          res.1 = .Ok ∧
          (∃ t', res.2.wtasks[tref]? = some t' ∧ t'.state = .Removed ∧ t'.deps = []) ∧
          (n = 0 → queue_contains res.2.ready_queue tref = false) ∧
          lookupM res.2.task_map task_id = none ∧
          ∀ k, steal_n k res.2 task_id = some (List.replicate k .NotHere, res.2))) := by
  constructor
  · intro h
    unfold steal_task; rw [h]
  · intro tref t hl hg
    refine ⟨?_, ?_, ?_⟩
    · intro hst
      unfold steal_task
      rw [hl]
      simp only [hg, hst]
    · intro sub hst
      unfold steal_task
      rw [hl]
      simp only [hg, hst]
    · intro n hst hid res hres
      unfold steal_task at hres
      rw [hl] at hres
      simp only [hg, hst, Option.map_eq_some'] at hres
      obtain ⟨s'', hrm, heq⟩ := hres
      obtain ⟨_, _, _, c4, _, c6, _, _, _, _, _, _, cq0, _, _, _, _⟩ :=
        remove_task_spec s tref t false s'' hg hrm
      have hres2 : res.2 = s'' := by rw [← heq]
      have hres1 : res.1 = .Ok := by rw [← heq]
      refine ⟨hres1, ⟨_, hres2 ▸ c4, rfl, rfl⟩, ?_, ?_, ?_⟩
      · intro hn0
        rw [hres2]
        exact cq0 (hn0 ▸ hst)
      · rw [hres2, ← hid]
        exact c6
      · intro k
        rw [hres2]
        exact steal_n_absent k s'' task_id (hid ▸ c6)

/-- A small state for the C3 witness: one `Waiting(0)` task with id `7`
in the ready queue. -/
def c3ws : WorkerState :=
  ⟨[⟨7, (0, 0), [], .Waiting 0⟩], [], [(7, 0)], [], [(0, (0, 0))], [], [], [], []⟩

/-- The state after the witness steal. -/
def c3ws' : WorkerState :=
  ⟨[⟨7, (0, 0), [], .Removed⟩], [], [], [], [], [], [], [], []⟩

/-- C3 witness: stealing id `7` once yields `Ok` and erases the task;
two further steals both answer `NotHere` with the state unchanged. -/
theorem c3_steal_witness :
    steal_task c3ws 7 = some (.Ok, c3ws') ∧ lookupM c3ws'.task_map 7 = none ∧
    steal_n 2 c3ws' 7 = some (List.replicate 2 .NotHere, c3ws') := by
  have hmain := ((c3_steal_task_outcomes c3ws 7).2 0 ⟨7, (0, 0), [], .Waiting 0⟩
    rfl rfl).2.2 0 rfl rfl (.Ok, c3ws') rfl
  exact ⟨rfl, hmain.2.2.2.1, hmain.2.2.2.2 2⟩

/-- The data-object state transitions a single worker-state operation is
allowed: a `Local` object stays `Local` or becomes `Removed` (never
`Remote` again), and `Removed` is terminal. -/
def dstate_ok (a b : DState) : Prop :=
  (a.isLcl = true → (b.isLcl = true ∨ b = .Removed)) ∧ (a = .Removed → b = .Removed)

theorem dstate_ok_refl (a : DState) : dstate_ok a a :=
  ⟨fun h => Or.inl h, fun h => h⟩

theorem dstate_ok_trans {a b c : DState} (h1 : dstate_ok a b) (h2 : dstate_ok b c) :
    dstate_ok a c := by
  refine ⟨fun ha => ?_, fun ha => h2.2 (h1.2 ha)⟩
  rcases h1.1 ha with hb | hb
  · exact h2.1 hb
  · exact Or.inr (h2.2 hb)

theorem dstate_ok_of_remote (ws : List Nat) (b : DState) : dstate_ok (.Remote ws) b :=
  ⟨fun h => by simp [DState.isLcl] at h, fun h => DState.noConfusion h⟩

theorem dstate_ok_to_removed (a : DState) : dstate_ok a .Removed :=
  ⟨fun _ => Or.inr rfl, fun _ => rfl⟩

/-- Pointwise allowed evolution of the object heap between two states. -/
def dobjs_ok (s s' : WorkerState) : Prop :=
  ∀ (dref : Nat) (o o' : DataObject), s.dobjs[dref]? = some o →
    s'.dobjs[dref]? = some o' → dstate_ok o.state o'.state

theorem dobjs_ok_of_eq {s s' : WorkerState} (h : s'.dobjs = s.dobjs) : dobjs_ok s s' := by
  intro dref o o' h1 h2
  rw [h, h1] at h2
  obtain rfl := Option.some.inj h2
  exact dstate_ok_refl o.state

theorem remove_deps_dobjs_ok :
    ∀ (pending : List Nat) (s : WorkerState) (tref : Nat) (jf : Bool) (s' : WorkerState),
      remove_deps s tref jf pending = some s' → dobjs_ok s s' := by
  intro pending
  induction pending with
  | nil =>
    intro s tref jf s' h
    simp only [remove_deps, Option.some.injEq] at h
    exact dobjs_ok_of_eq (h ▸ rfl)
  | cons d0 rest ih =>
    intro s tref jf s' h
    unfold remove_deps at h
    cases hg : s.dobjs[d0]? with
    | none => simp only [hg] at h; exact Option.noConfusion h
    | some o0 =>
      simp only [hg] at h
      split at h
      · split at h
        · exact Option.noConfusion h
        · next st' heq =>
          intro dref o o' h1 h2
          -- the single-step transition at d0 obeys the rule
          have hstep : dstate_ok o0.state st' := by
            by_cases hemp : (o0.consumers.filter (fun c => c ≠ tref)).isEmpty
            · rw [if_pos hemp] at heq
              cases hos : o0.state with
              | Remote ws => exact dstate_ok_of_remote ws st'
              | Lcl b sr =>
                rw [hos] at heq
                obtain rfl := Option.some.inj heq
                exact hos ▸ dstate_ok_refl _
              | Removed =>
                rw [hos] at heq
                obtain rfl := Option.some.inj heq
                exact hos ▸ dstate_ok_refl _
            · rw [if_neg hemp] at heq
              obtain rfl := Option.some.inj heq
              exact dstate_ok_refl _
          by_cases hd : d0 = dref
          · subst hd
            rw [hg] at h1
            obtain rfl := Option.some.inj h1
            exact dstate_ok_trans hstep
              (ih _ tref jf s' h d0 _ o' (getq_set_self _ (lt_of_getq hg)) h2)
          · refine ih _ tref jf s' h dref o o' ?_ h2
            show (s.dobjs.set d0 _)[dref]? = some o
            rw [getq_set_ne _ hd]
            exact h1
      · exact Option.noConfusion h

theorem download_consumers_dobjs :
    ∀ (pending : List Nat) (s s' : WorkerState),
      download_consumers s pending = some s' → s'.dobjs = s.dobjs := by
  intro pending
  induction pending with
  | nil =>
    intro s s' h
    simp only [download_consumers, Option.some.injEq] at h
    rw [← h]
  | cons c rest ih =>
    intro s s' h
    unfold download_consumers at h
    cases hg : s.wtasks[c]? with
    | none => simp only [hg] at h; exact Option.noConfusion h
    | some t =>
      simp only [hg] at h
      cases hdc : decrease_waiting_count t.state with
      | none => simp only [hdc] at h; exact Option.noConfusion h
      | some p =>
        obtain ⟨ts', ready⟩ := p
        simp only [hdc] at h
        cases hready : ready with
        | false =>
          rw [hready, if_neg (by simp : ¬ (false = true))] at h
          exact ih { s with wtasks := s.wtasks.set c { t with state := ts' } } s' h
        | true =>
          rw [hready, if_pos rfl] at h
          cases har : add_ready_task
              { s with wtasks := s.wtasks.set c { t with state := ts' } } c with
          | none => rw [har] at h; exact Option.noConfusion h
          | some s2 =>
            rw [har] at h
            have h2 := (add_ready_task_evolve har).1
            rw [ih _ _ h, h2]

theorem add_dependancy_core_states {s : WorkerState} {tref : Nat} {t : WTask} {dref : Nat}
    {ir : Bool} {s' : WorkerState} (h : add_dependancy_core s tref t dref ir = some s') :
    ∀ (d : Nat) (o o' : DataObject), s.dobjs[d]? = some o → s'.dobjs[d]? = some o' →
      o'.state = o.state := by
  unfold add_dependancy_core at h
  cases hg : s.dobjs[dref]? with
  | none => simp only [hg] at h; exact Option.noConfusion h
  | some o0 =>
    simp only [hg] at h
    have hs' : s'.dobjs = s.dobjs.set dref
        { o0 with consumers := consumers_insert o0.consumers tref } := by
      split at h
      · cases hi : increase_waiting_count t.state with
        | none => rw [hi] at h; exact Option.noConfusion h
        | some ts' =>
          rw [hi] at h
          obtain rfl := Option.some.inj h
          rfl
      · obtain rfl := Option.some.inj h
        rfl
    intro d o o' h1 h2
    rw [hs'] at h2
    by_cases hd : dref = d
    · subst hd
      rw [hg] at h1
      obtain rfl := Option.some.inj h1
      rw [getq_set_self _ (lt_of_getq hg)] at h2
      obtain rfl := Option.some.inj h2
      rfl
    · rw [getq_set_ne _ hd, h1] at h2
      obtain rfl := Option.some.inj h2
      rfl

theorem add_dependancy_dstate {s : WorkerState} {tref task_id size : Nat}
    {workers : List Nat} {s' : WorkerState}
    (h : add_dependancy s tref task_id size workers = some s') : dobjs_ok s s' := by
  unfold add_dependancy at h
  cases hgt : s.wtasks[tref]? with
  | none => simp only [hgt] at h; exact Option.noConfusion h
  | some t =>
    simp only [hgt] at h
    cases hl : lookupM s.data_map task_id with
    | none =>
      simp only [hl] at h
      intro d o o' h1 h2
      have h1' : (s.dobjs ++ [⟨task_id, size, .Remote workers, []⟩])[d]? = some o := by
        rw [List.getElem?_append_left (lt_of_getq h1)]
        exact h1
      have heq := add_dependancy_core_states h d o o' h1' h2
      rw [heq]
      exact dstate_ok_refl o.state
    | some dref =>
      simp only [hl] at h
      cases hgo : s.dobjs[dref]? with
      | none => simp only [hgo] at h; exact Option.noConfusion h
      | some o0 =>
        simp only [hgo] at h
        cases hos : o0.state with
        | Remote ws0 =>
          simp only [hos] at h
          intro d o o' h1 h2
          by_cases hd : dref = d
          · subst hd
            rw [hgo] at h1
            obtain rfl := Option.some.inj h1
            have heq := add_dependancy_core_states h dref
              { o0 with state := .Remote workers } o'
              (getq_set_self _ (lt_of_getq hgo)) h2
            rw [heq, hos]
            exact dstate_ok_of_remote ws0 _
          · have h1' : (s.dobjs.set dref { o0 with state := .Remote workers })[d]? =
                some o := by
              rw [getq_set_ne _ hd]
              exact h1
            have heq := add_dependancy_core_states h d o o' h1' h2
            rw [heq]
            exact dstate_ok_refl o.state
        | Lcl b sr =>
          simp only [hos] at h
          intro d o o' h1 h2
          have heq := add_dependancy_core_states h d o o' h1 h2
          rw [heq]
          exact dstate_ok_refl o.state
        | Removed => simp only [hos] at h; exact Option.noConfusion h

theorem on_data_downloaded_dstate {s : WorkerState} {dref : Nat} {data : List Nat}
    {ser : Nat} {s' : WorkerState} (h : on_data_downloaded s dref data ser = some s') :
    dobjs_ok s s' := by
  unfold on_data_downloaded at h
  cases hg : s.dobjs[dref]? with
  | none => simp only [hg] at h; exact Option.noConfusion h
  | some o0 =>
    simp only [hg] at h
    cases hos : o0.state with
    | Removed =>
      simp only [hos] at h
      obtain rfl := Option.some.inj h
      exact dobjs_ok_of_eq rfl
    | Lcl b sr => simp only [hos] at h; exact Option.noConfusion h
    | Remote ws =>
      simp only [hos] at h
      have hd := download_consumers_dobjs _ _ _ h
      intro d o o' h1 h2
      rw [hd] at h2
      have h2' : (s.dobjs.set dref { o0 with state := .Lcl data ser })[d]? = some o' := h2
      by_cases hdd : dref = d
      · subst hdd
        rw [hg] at h1
        obtain rfl := Option.some.inj h1
        rw [getq_set_self _ (lt_of_getq hg)] at h2'
        obtain rfl := Option.some.inj h2'
        rw [hos]
        exact dstate_ok_of_remote ws _
      · rw [getq_set_ne _ hdd, h1] at h2'
        obtain rfl := Option.some.inj h2'
        exact dstate_ok_refl o.state

theorem remove_task_core_dstate {s0 : WorkerState} {tref : Nat} {t : WTask} {jf : Bool}
    {s' : WorkerState} (h : remove_task_core s0 tref t jf = some s') : dobjs_ok s0 s' := by
  simp only [remove_task_core] at h
  cases hl : lookupM s0.task_map t.id with
  | none => simp only [hl] at h; exact Option.noConfusion h
  | some tref0 =>
    simp only [hl] at h
    have hres := remove_deps_dobjs_ok t.deps _ tref jf s' h
    exact hres

theorem remove_task_dstate {s : WorkerState} {tref : Nat} {jf : Bool} {s' : WorkerState}
    (h : remove_task s tref jf = some s') : dobjs_ok s s' := by
  unfold remove_task at h
  cases hg : s.wtasks[tref]? with
  | none => simp only [hg] at h; exact Option.noConfusion h
  | some t =>
    simp only [hg] at h
    cases hst : t.state with
    | Waiting x =>
      simp only [hst] at h
      cases hjf : jf with
      | true => rw [hjf] at h; simp at h
      | false =>
        rw [hjf, if_neg (by simp : ¬ (false = true))] at h
        by_cases hx : (x == 0) = true
        · rw [if_pos hx] at h
          cases hq : queue_contains s.ready_queue tref with
          | false => rw [hq] at h; simp at h
          | true =>
            rw [hq, if_pos rfl] at h
            have hres := @remove_task_core_dstate _ tref t false s' h
            exact hres
        · rw [if_neg hx] at h
          exact remove_task_core_dstate h
    | Running sub =>
      simp only [hst] at h
      cases hjf : jf with
      | false => rw [hjf] at h; simp at h
      | true =>
        rw [hjf, if_pos rfl] at h
        exact remove_task_core_dstate h
    | Removed => simp only [hst] at h; exact Option.noConfusion h

theorem steal_task_dstate {s : WorkerState} {task_id : Nat} {r : StealResponse}
    {s' : WorkerState} (h : steal_task s task_id = some (r, s')) : dobjs_ok s s' := by
  unfold steal_task at h
  cases hl : lookupM s.task_map task_id with
  | none =>
    simp only [hl, Option.some.injEq, Prod.mk.injEq] at h
    exact dobjs_ok_of_eq (h.2 ▸ rfl)
  | some tref =>
    simp only [hl] at h
    cases hg : s.wtasks[tref]? with
    | none => simp only [hg] at h; exact Option.noConfusion h
    | some t =>
      simp only [hg] at h
      cases hst : t.state with
      | Waiting n =>
        simp only [hst, Option.map_eq_some'] at h
        obtain ⟨s'', hrm, heq⟩ := h
        obtain rfl : s'' = s' := congrArg Prod.snd heq
        exact remove_task_dstate hrm
      | Running sub =>
        simp only [hst, Option.some.injEq, Prod.mk.injEq] at h
        exact dobjs_ok_of_eq (h.2 ▸ rfl)
      | Removed =>
        simp only [hst, Option.some.injEq, Prod.mk.injEq] at h
        exact dobjs_ok_of_eq (h.2 ▸ rfl)

/-- C6: no worker-state operation moves a data object from `Local` back
to `Remote`, and none moves it out of `Removed`: across any single
successful operation, a `Local` object stays `Local` or becomes
`Removed`, and a `Removed` object stays `Removed`. -/
theorem c6_local_monotone_removed_terminal (s : WorkerState) (op : Op) (s' : WorkerState)
    (dref : Nat) (o o' : DataObject) (h : apply_op s op = some s')
    (h1 : s.dobjs[dref]? = some o) (h2 : s'.dobjs[dref]? = some o') :
    (o.state.isLcl = true → (o'.state.isLcl = true ∨ o'.state = .Removed)) ∧
    (o.state = .Removed → o'.state = .Removed) := by
  suffices hok : dobjs_ok s s' by exact hok dref o o' h1 h2
  cases op with
  | setsub ids =>
    simp only [apply_op, set_subworkers] at h
    split at h
    · obtain rfl := Option.some.inj h
      exact dobjs_ok_of_eq rfl
    · exact Option.noConfusion h
  | create id priority =>
    simp only [apply_op, create_task, Option.some.injEq] at h
    exact dobjs_ok_of_eq (h ▸ rfl)
  | adddep tref task_id size workers => exact add_dependancy_dstate h
  | addtask tref =>
    simp only [apply_op, add_task] at h
    cases hg : s.wtasks[tref]? with
    | none => simp only [hg] at h; exact Option.noConfusion h
    | some t =>
      simp only [hg] at h
      cases hready : t.state.is_ready with
      | false =>
        rw [hready, if_neg (by simp : ¬ (false = true))] at h
        obtain rfl := Option.some.inj h
        exact dobjs_ok_of_eq rfl
      | true =>
        rw [hready, if_pos rfl] at h
        cases har : add_ready_task s tref with
        | none => rw [har] at h; exact Option.noConfusion h
        | some s1 =>
          rw [har] at h
          obtain rfl := Option.some.inj h
          exact dobjs_ok_of_eq (add_ready_task_evolve har).1
  | download dref0 data serializer => exact on_data_downloaded_dstate h
  | rmdata task_id =>
    simp only [apply_op, remove_data] at h
    cases hl : lookupM s.data_map task_id with
    | none =>
      simp only [hl, Option.some.injEq] at h
      exact dobjs_ok_of_eq (h ▸ rfl)
    | some dref0 =>
      simp only [hl] at h
      cases hg : s.dobjs[dref0]? with
      | none => simp only [hg] at h; exact Option.noConfusion h
      | some o0 =>
        simp only [hg] at h
        split at h
        · obtain rfl := Option.some.inj h
          intro d oa ob ha hb
          have hb' : (s.dobjs.set dref0 { o0 with state := .Removed })[d]? = some ob := hb
          by_cases hd : dref0 = d
          · subst hd
            rw [getq_set_self _ (lt_of_getq hg)] at hb'
            obtain rfl := Option.some.inj hb'
            exact dstate_ok_to_removed oa.state
          · rw [getq_set_ne _ hd, ha] at hb'
            obtain rfl := Option.some.inj hb'
            exact dstate_ok_refl oa.state
        · exact Option.noConfusion h
  | rmtask tref just_finished => exact remove_task_dstate h
  | steal task_id =>
    simp only [apply_op, Option.map_eq_some'] at h
    obtain ⟨⟨r, s''⟩, hsteal, heq⟩ := h
    obtain rfl : s'' = s' := heq
    exact steal_task_dstate hsteal

/-- C6 witness: removing a consumer-free `Local` data object (`rmdata`)
moves it to `Removed`, an allowed transition. -/
theorem c6_witness :
    ((DState.Lcl [7] 0).isLcl = true →
      ((DState.Removed).isLcl = true ∨ DState.Removed = DState.Removed)) ∧
    (DState.Lcl [7] 0 = DState.Removed → DState.Removed = DState.Removed) := by
  exact c6_local_monotone_removed_terminal
    ⟨[], [⟨4, 1, .Lcl [7] 0, []⟩], [], [(4, 0)], [], [], [], [], []⟩ (.rmdata 4)
    ⟨[], [⟨4, 1, .Removed, []⟩], [], [], [], [], [], [], []⟩ 0
    ⟨4, 1, .Lcl [7] 0, []⟩ ⟨4, 1, .Removed, []⟩ rfl rfl rfl

theorem queue_push_mem_self (q : List QEntry) (tref : Nat) (prio : Nat × Nat) :
    (tref, prio) ∈ queue_push q tref prio := by
  unfold queue_push
  by_cases hc : q.any (fun e => e.1 == tref)
  · rw [if_pos hc]
    obtain ⟨e, he, hbe⟩ := List.any_eq_true.mp hc
    refine List.mem_map.mpr ⟨e, he, ?_⟩
    rw [if_pos hbe]
  · rw [if_neg hc]
    exact List.mem_append_right _ (List.mem_singleton.mpr rfl)

theorem queue_push_mem_of_ne {q : List QEntry} {e : QEntry} (he : e ∈ q) (tref : Nat)
    (prio : Nat × Nat) (hne : e.1 ≠ tref) : e ∈ queue_push q tref prio := by
  unfold queue_push
  by_cases hc : q.any (fun x => x.1 == tref)
  · rw [if_pos hc]
    refine List.mem_map.mpr ⟨e, he, ?_⟩
    rw [if_neg (by simpa using hne)]
  · rw [if_neg hc]
    exact List.mem_append_left _ he

/-- Inversion of a successful `decrease_waiting_count`. -/
theorem decrease_waiting_count_inv {ts ts' : TState} {ready : Bool}
    (h : decrease_waiting_count ts = some (ts', ready)) :
    ∃ m, ts = .Waiting (m + 1) ∧ ts' = .Waiting m ∧ ready = (m == 0) := by
  cases ts with
  | Waiting n =>
    cases n with
    | zero => simp [decrease_waiting_count] at h
    | succ m =>
      refine ⟨m, rfl, ?_, ?_⟩
      · exact (congrArg Prod.fst (Option.some.inj h)).symm
      · exact (congrArg Prod.snd (Option.some.inj h)).symm
  | Running sub => simp [decrease_waiting_count] at h
  | Removed => simp [decrease_waiting_count] at h

/-- The consumer loop of `on_data_downloaded` when no subworker is free
(so `try_start_tasks` is the identity): each pending consumer's count is
decremented, a consumer reaching zero lands in the ready queue, and all
other tasks, the objects, the messages and the free pool are untouched. -/
theorem download_consumers_free_spec :
    ∀ (pending : List Nat) (s s' : WorkerState),
      download_consumers s pending = some s' →
      s.free_subworkers = [] → pending.Nodup →
      s'.dobjs = s.dobjs ∧ s'.msgs = s.msgs ∧
      s'.free_subworkers = s.free_subworkers ∧
      (∀ c : Nat, c ∉ pending → s'.wtasks[c]? = s.wtasks[c]?) ∧
      (∀ e : QEntry, e ∈ s.ready_queue → e.1 ∉ pending → e ∈ s'.ready_queue) ∧
      (∀ c : Nat, c ∈ pending → ∃ t m, s.wtasks[c]? = some t ∧
        t.state = .Waiting (m + 1) ∧
        s'.wtasks[c]? = some { t with state := .Waiting m } ∧
        (m = 0 → (c, t.priority) ∈ s'.ready_queue)) := by
  intro pending
  induction pending with
  | nil =>
    intro s s' h _ _
    simp only [download_consumers, Option.some.injEq] at h
    subst h
    exact ⟨rfl, rfl, rfl, fun _ _ => rfl, fun e he _ => he,
      fun c hc => absurd hc (List.not_mem_nil c)⟩
  | cons c0 rest ih =>
    intro s s' h hfree hnd
    have hc0r : c0 ∉ rest := (List.nodup_cons.mp hnd).1
    have hndr : rest.Nodup := (List.nodup_cons.mp hnd).2
    unfold download_consumers at h
    cases hg : s.wtasks[c0]? with
    | none => simp only [hg] at h; exact Option.noConfusion h
    | some t =>
      simp only [hg] at h
      cases hdc : decrease_waiting_count t.state with
      | none => simp only [hdc] at h; exact Option.noConfusion h
      | some p =>
        obtain ⟨ts', ready⟩ := p
        simp only [hdc] at h
        obtain ⟨m, hts, hts', hready⟩ := decrease_waiting_count_inv hdc
        subst hts'
        have hlt : c0 < s.wtasks.length := lt_of_getq hg
        cases hre : ready with
        | false =>
          rw [hre, if_neg (by simp : ¬ (false = true))] at h
          have hm0 : ¬ m = 0 := by
            rw [hre] at hready
            simpa using hready.symm
          obtain ⟨i1, i2, i3, i4, i5, i6⟩ :=
            ih { s with wtasks := s.wtasks.set c0 { t with state := .Waiting m } } s' h
              hfree hndr
          refine ⟨i1, i2, i3, ?_, ?_, ?_⟩
          · intro c hc
            have hcc : c ≠ c0 := fun he => hc (he ▸ List.mem_cons_self c0 rest)
            have hcr : c ∉ rest := fun hr => hc (List.mem_cons_of_mem c0 hr)
            rw [i4 c hcr]
            exact getq_set_ne _ (fun he => hcc he.symm)
          · intro e he hep
            exact i5 e he (fun hr => hep (List.mem_cons_of_mem c0 hr))
          · intro c hc
            rcases List.mem_cons.mp hc with rfl | hcr
            · refine ⟨t, m, hg, hts, ?_, fun hm => absurd hm hm0⟩
              rw [i4 c hc0r]
              exact getq_set_self _ hlt
            · have hcc : c ≠ c0 := fun he => hc0r (he ▸ hcr)
              obtain ⟨t2, m2, j1, j2, j3, j4⟩ := i6 c hcr
              refine ⟨t2, m2, ?_, j2, j3, j4⟩
              rw [← j1]
              exact (getq_set_ne _ (fun he => hcc he.symm)).symm
        | true =>
          rw [hre, if_pos rfl] at h
          have hm0 : m = 0 := by
            rw [hre] at hready
            simpa using hready.symm
          -- add_ready_task with no free subworkers: a pure queue push
          have hpush : add_ready_task
              { s with wtasks := s.wtasks.set c0 { t with state := .Waiting m } } c0 =
              some
                { s with
                  wtasks := s.wtasks.set c0 { t with state := .Waiting m },
                  ready_queue := queue_push s.ready_queue c0 t.priority } := by
            unfold add_ready_task
            rw [show ({ s with wtasks := s.wtasks.set c0 { t with state := .Waiting m } }
                : WorkerState).wtasks[c0]? = some { t with state := .Waiting m } from
              getq_set_self _ hlt]
            exact try_start_tasks_no_free hfree
          rw [hpush] at h
          obtain ⟨i1, i2, i3, i4, i5, i6⟩ :=
            ih
              { s with
                wtasks := s.wtasks.set c0 { t with state := .Waiting m },
                ready_queue := queue_push s.ready_queue c0 t.priority } s' h hfree hndr
          refine ⟨i1, i2, i3, ?_, ?_, ?_⟩
          · intro c hc
            have hcc : c ≠ c0 := fun he => hc (he ▸ List.mem_cons_self c0 rest)
            have hcr : c ∉ rest := fun hr => hc (List.mem_cons_of_mem c0 hr)
            rw [i4 c hcr]
            exact getq_set_ne _ (fun he => hcc he.symm)
          · intro e he hep
            have hec : e.1 ≠ c0 := fun hx => hep (hx ▸ List.mem_cons_self c0 rest)
            exact i5 e (queue_push_mem_of_ne he c0 t.priority hec)
              (fun hr => hep (List.mem_cons_of_mem c0 hr))
          · intro c hc
            rcases List.mem_cons.mp hc with rfl | hcr
            · refine ⟨t, m, hg, hts, ?_, fun _ => ?_⟩
              · rw [i4 c hc0r]
                exact getq_set_self _ hlt
              · exact i5 (c, t.priority) (queue_push_mem_self _ _ _) (by simpa using hc0r)
            · have hcc : c ≠ c0 := fun he => hc0r (he ▸ hcr)
              obtain ⟨t2, m2, j1, j2, j3, j4⟩ := i6 c hcr
              refine ⟨t2, m2, ?_, j2, j3, j4⟩
              rw [← j1]
              exact (getq_set_ne _ (fun he => hcc he.symm)).symm

/-- C4: `on_data_downloaded` on a `Removed` object returns without any
effect; on a `Local` object it is `unreachable!()` (panic); on a `Remote`
object it makes the object `Local` with the downloaded bytes and
serializer, appends a `DataDownloaded(id)` message for the scheduler,
decrements the wait count of every consumer exactly once, pushes every
consumer whose count reaches zero onto the ready queue, and attempts
task starting (here stated with no free subworker, where the attempt
starts nothing); tasks that are not consumers are untouched. -/
theorem c4_on_data_downloaded_cases (s : WorkerState) (dref : Nat) (data : List Nat)
    (ser : Nat) (o : DataObject) (hg : s.dobjs[dref]? = some o) :
    (o.state = .Removed → on_data_downloaded s dref data ser = some s) ∧
    (∀ b sr, o.state = .Lcl b sr → on_data_downloaded s dref data ser = none) ∧
    (∀ ws, o.state = .Remote ws → s.free_subworkers = [] → o.consumers.Nodup →
      ∀ s', on_data_downloaded s dref data ser = some s' →
        s'.dobjs[dref]? = some { o with state := .Lcl data ser } ∧
        s'.msgs = s.msgs ++ [o.id] ∧
        (∀ c : Nat, c ∈ o.consumers → ∃ t m, s.wtasks[c]? = some t ∧
          t.state = .Waiting (m + 1) ∧
          s'.wtasks[c]? = some { t with state := .Waiting m } ∧
          (m = 0 → (c, t.priority) ∈ s'.ready_queue)) ∧
        (∀ c : Nat, c ∉ o.consumers → s'.wtasks[c]? = s.wtasks[c]?)) := by
  refine ⟨?_, ?_, ?_⟩
  · intro hos
    unfold on_data_downloaded
    rw [hg]
    simp only [hos]
  · intro b sr hos
    unfold on_data_downloaded
    rw [hg]
    simp only [hos]
  · intro ws hos hfree hnd s' h
    unfold on_data_downloaded at h
    rw [hg] at h
    simp only [hos] at h
    obtain ⟨i1, i2, i3, i4, i5, i6⟩ := download_consumers_free_spec o.consumers _ s' h
      hfree hnd
    refine ⟨?_, ?_, ?_, ?_⟩
    · rw [i1]
      exact getq_set_self _ (lt_of_getq hg)
    · exact i2
    · intro c hc
      exact i6 c hc
    · intro c hc
      exact i4 c hc

/-- The C4 witness start state: a `Remote` object with one consumer at
wait count 1 and no free subworker. -/
def c4ws : WorkerState :=
  ⟨[⟨3, (1, 2), [0], .Waiting 1⟩], [⟨9, 4, .Remote [2], [0]⟩],
    [(3, 0)], [(9, 0)], [], [], [], [], []⟩

/-- The state after the C4 witness download. -/
def c4ws' : WorkerState :=
  ⟨[⟨3, (1, 2), [0], .Waiting 0⟩], [⟨9, 4, .Lcl [5, 6] 1, [0]⟩],
    [(3, 0)], [(9, 0)], [(0, (1, 2))], [], [], [9], []⟩

/-- C4 witness: after the download the object is `Local` with the bytes
and serializer, the `DataDownloaded(9)` message is recorded, and the
consumer — decremented to count 0 — sits in the ready queue. -/
theorem c4_on_data_downloaded_witness :
    on_data_downloaded c4ws 0 [5, 6] 1 = some c4ws' ∧
    c4ws'.dobjs[0]? = some ⟨9, 4, .Lcl [5, 6] 1, [0]⟩ ∧
    c4ws'.msgs = [] ++ [9] ∧
    (0, (1, 2)) ∈ c4ws'.ready_queue := by
  obtain ⟨k1, k2, k3, _⟩ := (c4_on_data_downloaded_cases c4ws 0 [5, 6] 1
    ⟨9, 4, .Remote [2], [0]⟩ rfl).2.2 [2] rfl rfl (by simp) c4ws' rfl
  obtain ⟨t, m, j1, j2, j3, j4⟩ := k3 0 (by simp)
  obtain rfl : t = ⟨3, (1, 2), [0], .Waiting 1⟩ := by
    simpa [c4ws] using j1.symm
  obtain rfl : m = 0 := by
    simpa using j2
  exact ⟨rfl, k1, k2, j4 rfl⟩

/-- Whether the object referenced by `d` is not `Local` in `s`; a dangling
reference counts as not local (reachable states have none). -/
def depNotLocal (s : WorkerState) (d : Nat) : Bool :=
  match s.dobjs[d]? with
  | some o => !o.state.isLcl
  | none => true

/-- The C2 invariant: every `Waiting` task's remaining-wait count equals
the number of its dependencies whose object is not `Local`. -/
def countOK (s : WorkerState) : Prop :=
  ∀ (tref : Nat) (t : WTask) (n : Nat), s.wtasks[tref]? = some t →
    t.state = .Waiting n → n = (t.deps.filter (fun d => depNotLocal s d)).length

/-- `countOK` generalized over a list of consumers whose decrement is
still pending: their count is one above the non-`Local` dependency count. -/
def pendingCountOK (s : WorkerState) (pending : List Nat) : Prop :=
  ∀ (tref : Nat) (t : WTask) (n : Nat), s.wtasks[tref]? = some t →
    t.state = .Waiting n →
    n = (t.deps.filter (fun d => depNotLocal s d)).length +
      (if tref ∈ pending then 1 else 0)

/-- Every dependency reference of a task is a live object listing the
task as a consumer. -/
def validDeps (s : WorkerState) : Prop :=
  ∀ (tref : Nat) (t : WTask), s.wtasks[tref]? = some t →
    ∀ d ∈ t.deps, ∃ o, s.dobjs[d]? = some o ∧ tref ∈ o.consumers

/-- Every consumer of an object is a live task holding the object as a
dependency. -/
def validConsumers (s : WorkerState) : Prop :=
  ∀ (dref : Nat) (o : DataObject), s.dobjs[dref]? = some o →
    ∀ c ∈ o.consumers, ∃ t, s.wtasks[c]? = some t ∧ dref ∈ t.deps

/-- Dependency lists are duplicate free. -/
def depsNodup (s : WorkerState) : Prop :=
  ∀ (tref : Nat) (t : WTask), s.wtasks[tref]? = some t → t.deps.Nodup

/-- Consumer sets are duplicate free. -/
def consNodup (s : WorkerState) : Prop :=
  ∀ (dref : Nat) (o : DataObject), s.dobjs[dref]? = some o → o.consumers.Nodup

/-- The inductive invariant for the wait-count claim. -/
def WF (s : WorkerState) : Prop :=
  validDeps s ∧ validConsumers s ∧ depsNodup s ∧ consNodup s ∧ countOK s

theorem countOK_of_pending_nil {s : WorkerState} (h : pendingCountOK s []) : countOK s := by
  intro tref t n h1 h2
  simpa using h tref t n h1 h2

theorem pending_nil_of_countOK {s : WorkerState} (h : countOK s) : pendingCountOK s [] := by
  intro tref t n h1 h2
  simpa using h tref t n h1 h2

theorem consumers_insert_mem_self (c : List Nat) (tref : Nat) :
    tref ∈ consumers_insert c tref := by
  unfold consumers_insert
  split
  · assumption
  · exact List.mem_append_right _ (List.mem_singleton.mpr rfl)

theorem consumers_insert_sub {c : List Nat} {x : Nat} (h : x ∈ c) (tref : Nat) :
    x ∈ consumers_insert c tref := by
  unfold consumers_insert
  split
  · exact h
  · exact List.mem_append_left _ h

theorem mem_consumers_insert {c : List Nat} {x tref : Nat}
    (h : x ∈ consumers_insert c tref) : x ∈ c ∨ x = tref := by
  unfold consumers_insert at h
  split at h
  · exact Or.inl h
  · rcases List.mem_append.mp h with h | h
    · exact Or.inl h
    · exact Or.inr (List.mem_singleton.mp h)

theorem consumers_insert_nodup {c : List Nat} (hnd : c.Nodup) (tref : Nat) :
    (consumers_insert c tref).Nodup := by
  unfold consumers_insert
  split
  · exact hnd
  · next hmem =>
    rw [List.nodup_append]
    exact ⟨hnd, List.nodup_singleton tref, by simpa using hmem⟩

theorem getq_append_other {α : Type} {l : List α} {a : α} {i : Nat} (h : i ≠ l.length) :
    (l ++ [a])[i]? = l[i]? := by
  by_cases hlt : i < l.length
  · exact List.getElem?_append_left hlt
  · have h1 : l.length ≤ i := Nat.le_of_not_lt hlt
    have h2 : (l ++ [a]).length ≤ i := by
      simp only [List.length_append, List.length_singleton]
      omega
    rw [List.getElem?_eq_none h2, List.getElem?_eq_none h1]

theorem getq_of_lt {α : Type} {l : List α} {i : Nat} (h : i < l.length) :
    ∃ x, l[i]? = some x :=
  ⟨l[i], List.getElem?_eq_getElem h⟩

theorem nodup_concat {l : List Nat} {a : Nat} (hnd : l.Nodup) (ha : a ∉ l) :
    (l ++ [a]).Nodup := by
  rw [List.nodup_append]
  exact ⟨hnd, List.nodup_singleton a, by simpa using ha⟩

theorem filter_length_flip {l : List Nat} {p q : Nat → Bool} {a : Nat}
    (hnd : l.Nodup) (ha : a ∈ l) (hpa : p a = true) (hqa : q a = false)
    (hother : ∀ x ∈ l, x ≠ a → p x = q x) :
    (l.filter p).length = (l.filter q).length + 1 := by
  induction l with
  | nil => exact absurd ha (List.not_mem_nil a)
  | cons b tl ih =>
    have hndtl : tl.Nodup := (List.nodup_cons.mp hnd).2
    by_cases hb : b = a
    · subst hb
      have hbtl : b ∉ tl := (List.nodup_cons.mp hnd).1
      have hcong : tl.filter p = tl.filter q := by
        apply List.filter_congr
        intro x hx
        exact hother x (List.mem_cons_of_mem b hx) (fun he => hbtl (he ▸ hx))
      rw [List.filter_cons, List.filter_cons, hpa, hqa]
      simp [hcong]
    · have hatl : a ∈ tl := by
        rcases List.mem_cons.mp ha with h | h
        · exact absurd h.symm hb
        · exact h
      have hih := ih hndtl hatl
        (fun x hx hxa => hother x (List.mem_cons_of_mem b hx) hxa)
      have hpb : p b = q b := hother b (List.mem_cons_self b tl) hb
      rw [List.filter_cons, List.filter_cons, hpb]
      cases hqb : q b with
      | false => simpa [hqb] using hih
      | true => simpa [hqb] using hih

theorem getq_append_cases {α : Type} {l : List α} {a : α} {i : Nat} {x : α}
    (h : (l ++ [a])[i]? = some x) : l[i]? = some x ∨ (i = l.length ∧ x = a) := by
  by_cases he : i = l.length
  · subst he
    rw [List.getElem?_concat_length] at h
    exact Or.inr ⟨rfl, (Option.some.inj h).symm⟩
  · rw [getq_append_other he] at h
    exact Or.inl h

theorem depNotLocal_congr {s s' : WorkerState} (hd : s'.dobjs = s.dobjs) :
    depNotLocal s' = depNotLocal s := by
  funext d
  unfold depNotLocal
  rw [hd]

theorem depNotLocal_eq_of_some {s : WorkerState} {d : Nat} {o : DataObject}
    (h : s.dobjs[d]? = some o) : depNotLocal s d = !o.state.isLcl := by
  unfold depNotLocal
  rw [h]

theorem depNotLocal_congr_at {s s' : WorkerState} {d : Nat}
    (h : s'.dobjs[d]? = s.dobjs[d]?) : depNotLocal s' d = depNotLocal s d := by
  unfold depNotLocal
  rw [h]

/-- The structural invariants and a pending-count invariant survive a
`try_start_tasks`-style evolution: object heap unchanged, task fields
unchanged, `Waiting` states preserved (or started into `Running`). -/
theorem WFp_of_evolve {s s' : WorkerState} (pending : List Nat)
    (hd : s'.dobjs = s.dobjs)
    (hlen : s'.wtasks.length = s.wtasks.length)
    (hev : ∀ (tref : Nat) (t' : WTask), s'.wtasks[tref]? = some t' →
      ∃ t, s.wtasks[tref]? = some t ∧ task_evolve t t')
    (h1 : validDeps s) (h2 : validConsumers s) (h3 : depsNodup s) (h4 : consNodup s)
    (h5 : pendingCountOK s pending) :
    validDeps s' ∧ validConsumers s' ∧ depsNodup s' ∧ consNodup s' ∧
      pendingCountOK s' pending := by
  refine ⟨?_, ?_, ?_, ?_, ?_⟩
  · intro tref t' hg' d hdm
    obtain ⟨t, hg, _, _, hdeps, _⟩ := hev tref t' hg'
    obtain ⟨o, lu, mem⟩ := h1 tref t hg d (hdeps ▸ hdm)
    exact ⟨o, hd ▸ lu, mem⟩
  · intro dref o hgo c hc
    obtain ⟨t, hgt, hdm⟩ := h2 dref o (hd ▸ hgo) c hc
    obtain ⟨t', hgt'⟩ := getq_of_lt (l := s'.wtasks) (hlen ▸ lt_of_getq hgt)
    obtain ⟨t0, hgt0, _, _, hdeps, _⟩ := hev c t' hgt'
    rw [hgt] at hgt0
    obtain rfl := Option.some.inj hgt0
    exact ⟨t', hgt', hdeps ▸ hdm⟩
  · intro tref t' hg'
    obtain ⟨t, hg, _, _, hdeps, _⟩ := hev tref t' hg'
    exact hdeps ▸ h3 tref t hg
  · intro dref o hgo
    exact h4 dref o (hd ▸ hgo)
  · intro tref t' n hg' hst'
    obtain ⟨t, hg, _, _, hdeps, hstev⟩ := hev tref t' hg'
    rcases hstev with hstev | ⟨k, sub, _, hrun⟩
    · have hst : t.state = .Waiting n := hstev ▸ hst'
      have := h5 tref t n hg hst
      rw [hdeps, depNotLocal_congr hd]
      exact this
    · rw [hrun] at hst'
      exact TState.noConfusion hst'

theorem WF_setsub {s s' : WorkerState} {ids : List Nat} (hwf : WF s)
    (h : set_subworkers s ids = some s') : WF s' := by
  unfold set_subworkers at h
  split at h
  · obtain rfl := Option.some.inj h
    exact hwf
  · exact Option.noConfusion h

theorem WF_create {s : WorkerState} (id : Nat) (priority : Nat × Nat) (hwf : WF s) :
    WF (create_task s id priority).1 := by
  obtain ⟨h1, h2, h3, h4, h5⟩ := hwf
  refine ⟨?_, ?_, ?_, ?_, ?_⟩
  · intro tref t hg d hdm
    rcases getq_append_cases hg with hg0 | ⟨_, rfl⟩
    · exact h1 tref t hg0 d hdm
    · exact absurd hdm (List.not_mem_nil d)
  · intro dref o hgo c hc
    obtain ⟨t, hgt, hdm⟩ := h2 dref o hgo c hc
    refine ⟨t, ?_, hdm⟩
    show (s.wtasks ++ _)[c]? = some t
    rw [List.getElem?_append_left (lt_of_getq hgt)]
    exact hgt
  · intro tref t hg
    rcases getq_append_cases hg with hg0 | ⟨_, rfl⟩
    · exact h3 tref t hg0
    · exact List.nodup_nil
  · intro dref o hgo
    exact h4 dref o hgo
  · intro tref t n hg hst
    rcases getq_append_cases hg with hg0 | ⟨_, rfl⟩
    · exact h5 tref t n hg0 hst
    · obtain rfl : n = 0 := by
        simpa using (TState.Waiting.inj hst).symm
      rfl

theorem WF_add_ready {s s' : WorkerState} {tref : Nat} (hwf : WF s)
    (h : add_ready_task s tref = some s') : WF s' := by
  obtain ⟨h1, h2, h3, h4, h5⟩ := hwf
  obtain ⟨e1, _, _, _, _, e6, e7⟩ := add_ready_task_evolve h
  obtain ⟨k1, k2, k3, k4, k5⟩ :=
    WFp_of_evolve [] e1 e6 e7 h1 h2 h3 h4 (pending_nil_of_countOK h5)
  exact ⟨k1, k2, k3, k4, countOK_of_pending_nil k5⟩

theorem WF_addtask {s s' : WorkerState} {tref : Nat} (hwf : WF s)
    (h : add_task s tref = some s') : WF s' := by
  unfold add_task at h
  cases hg : s.wtasks[tref]? with
  | none => simp only [hg] at h; exact Option.noConfusion h
  | some t =>
    simp only [hg] at h
    cases hready : t.state.is_ready with
    | false =>
      rw [hready, if_neg (by simp : ¬ (false = true))] at h
      obtain rfl := Option.some.inj h
      exact hwf
    | true =>
      rw [hready, if_pos rfl] at h
      cases har : add_ready_task s tref with
      | none => rw [har] at h; exact Option.noConfusion h
      | some s1 =>
        rw [har] at h
        obtain rfl := Option.some.inj h
        have hres := WF_add_ready hwf har
        exact hres

/-- Inversion of a successful `increase_waiting_count`. -/
theorem increase_waiting_count_inv {ts ts' : TState}
    (h : increase_waiting_count ts = some ts') :
    ∃ k, ts = .Waiting k ∧ ts' = .Waiting (k + 1) := by
  cases ts with
  | Waiting k => exact ⟨k, rfl, (Option.some.inj h).symm⟩
  | Running sub => simp [increase_waiting_count] at h
  | Removed => simp [increase_waiting_count] at h

/-- Pointwise effect of a successful `add_dependancy_core`. -/
theorem add_dependancy_core_spec {s0 : WorkerState} {tref : Nat} {t : WTask} {dref : Nat}
    {ir : Bool} {s' : WorkerState} (h : add_dependancy_core s0 tref t dref ir = some s')
    (hlt : tref < s0.wtasks.length) :
    ∃ oC, s0.dobjs[dref]? = some oC ∧
      s'.dobjs[dref]? = some { oC with consumers := consumers_insert oC.consumers tref } ∧
      (∀ d : Nat, d ≠ dref → s'.dobjs[d]? = s0.dobjs[d]?) ∧
      (∀ r : Nat, r ≠ tref → s'.wtasks[r]? = s0.wtasks[r]?) ∧
      s'.wtasks.length = s0.wtasks.length ∧
      ((ir = true ∧ ∃ k, t.state = .Waiting k ∧
         s'.wtasks[tref]? =
           some { t with state := .Waiting (k + 1), deps := t.deps ++ [dref] }) ∨
       (ir = false ∧ s'.wtasks[tref]? = some { t with deps := t.deps ++ [dref] })) := by
  unfold add_dependancy_core at h
  cases hg : s0.dobjs[dref]? with
  | none => simp only [hg] at h; exact Option.noConfusion h
  | some oC =>
    simp only [hg] at h
    refine ⟨oC, rfl, ?_⟩
    split at h
    · next hir =>
      cases hi : increase_waiting_count t.state with
      | none => rw [hi] at h; exact Option.noConfusion h
      | some ts' =>
        rw [hi] at h
        obtain ⟨k, hk, hk'⟩ := increase_waiting_count_inv hi
        subst hk'
        obtain rfl := Option.some.inj h
        refine ⟨getq_set_self _ (lt_of_getq hg), fun d hd => getq_set_ne _ (fun he => hd he.symm),
          fun r hr => getq_set_ne _ (fun he => hr he.symm), by simp,
          Or.inl ⟨hir, k, hk, getq_set_self _ (by simpa using hlt)⟩⟩
    · next hir =>
      obtain rfl := Option.some.inj h
      refine ⟨getq_set_self _ (lt_of_getq hg), fun d hd => getq_set_ne _ (fun he => hd he.symm),
        fun r hr => getq_set_ne _ (fun he => hr he.symm), by simp,
        Or.inr ⟨by simpa using hir, getq_set_self _ (by simpa using hlt)⟩⟩

/-- The invariant survives the common shape of an `add_dependancy` call:
a new dependency `dref` (not previously a dependency of the task) is
appended to the task's `deps`, the task joins the object's consumer set,
the wait count is incremented exactly when the object is remote, and
everything else is untouched. -/
theorem WF_adddep_update {s s' : WorkerState} {tref dref : Nat} {t : WTask}
    {oC' : DataObject} {remoteFlag : Bool}
    (hwf : WF s)
    (hgt : s.wtasks[tref]? = some t)
    (hdnew : dref ∉ t.deps)
    (hObj' : s'.dobjs[dref]? = some oC')
    (hOld : (s.dobjs[dref]? = none ∧ oC'.consumers = [tref]) ∨
      (∃ o0, s.dobjs[dref]? = some o0 ∧
        oC'.consumers = consumers_insert o0.consumers tref ∧
        o0.state.isLcl = oC'.state.isLcl))
    (hflag : oC'.state.isLcl = !remoteFlag)
    (hOtherO : ∀ d : Nat, d ≠ dref → s'.dobjs[d]? = s.dobjs[d]?)
    (hOtherT : ∀ r : Nat, r ≠ tref → s'.wtasks[r]? = s.wtasks[r]?)
    (htask : (remoteFlag = true ∧ ∃ k, t.state = .Waiting k ∧
        s'.wtasks[tref]? =
          some { t with state := .Waiting (k + 1), deps := t.deps ++ [dref] }) ∨
      (remoteFlag = false ∧ s'.wtasks[tref]? = some { t with deps := t.deps ++ [dref] })) :
    WF s' := by
  obtain ⟨h1, h2, h3, h4, h5⟩ := hwf
  have htask' : ∃ t', s'.wtasks[tref]? = some t' ∧ t'.deps = t.deps ++ [dref] := by
    rcases htask with ⟨_, k, _, hq⟩ | ⟨_, hq⟩
    · exact ⟨_, hq, rfl⟩
    · exact ⟨_, hq, rfl⟩
  obtain ⟨t', hgt', hdeps'⟩ := htask'
  have hdnl_pres : ∀ (r' : Nat) (tr' : WTask), s.wtasks[r']? = some tr' →
      ∀ d ∈ tr'.deps, depNotLocal s' d = depNotLocal s d := by
    intro r' tr' hgr' d hdm
    by_cases hd : dref = d
    · subst hd
      obtain ⟨o, lu, _⟩ := h1 r' tr' hgr' dref hdm
      rcases hOld with ⟨hnone, _⟩ | ⟨o0, hsome, _, hst⟩
      · rw [hnone] at lu; exact Option.noConfusion lu
      · rw [depNotLocal_eq_of_some hObj', depNotLocal_eq_of_some hsome, hst]
    · exact depNotLocal_congr_at (hOtherO d (fun he => hd he.symm))
  refine ⟨?_, ?_, ?_, ?_, ?_⟩
  · -- validDeps
    intro r tr hgr d hdm
    by_cases hr : tref = r
    · subst hr
      rw [hgt'] at hgr
      obtain rfl := Option.some.inj hgr
      rw [hdeps'] at hdm
      rcases List.mem_append.mp hdm with hdm | hdm
      · have hdne : d ≠ dref := fun he => hdnew (he ▸ hdm)
        obtain ⟨o, lu, mem⟩ := h1 tref t hgt d hdm
        exact ⟨o, (hOtherO d hdne) ▸ lu, mem⟩
      · obtain rfl := List.mem_singleton.mp hdm
        refine ⟨oC', hObj', ?_⟩
        rcases hOld with ⟨_, hcons⟩ | ⟨o0, _, hcons, _⟩
        · rw [hcons]; exact List.mem_singleton.mpr rfl
        · rw [hcons]; exact consumers_insert_mem_self _ _
    · obtain ⟨o, lu, mem⟩ := h1 r tr ((hOtherT r (fun he => hr he.symm)) ▸ hgr) d hdm
      by_cases hd : dref = d
      · subst hd
        rcases hOld with ⟨hnone, _⟩ | ⟨o0, hsome, hcons, _⟩
        · rw [hnone] at lu; exact Option.noConfusion lu
        · rw [hsome] at lu
          obtain rfl := Option.some.inj lu
          refine ⟨oC', hObj', ?_⟩
          rw [hcons]
          exact consumers_insert_sub mem tref
      · exact ⟨o, (hOtherO d (fun he => hd he.symm)) ▸ lu, mem⟩
  · -- validConsumers
    intro dr o' hgo' c hc
    by_cases hd : dref = dr
    · subst hd
      rw [hObj'] at hgo'
      obtain rfl := Option.some.inj hgo'
      have hctref : c = tref → ∃ tt, s'.wtasks[c]? = some tt ∧ dref ∈ tt.deps := by
        rintro rfl
        exact ⟨t', hgt', hdeps' ▸ List.mem_append_right _ (List.mem_singleton.mpr rfl)⟩
      rcases hOld with ⟨_, hcons⟩ | ⟨o0, hsome, hcons, _⟩
      · rw [hcons] at hc
        exact hctref (List.mem_singleton.mp hc)
      · rw [hcons] at hc
        rcases mem_consumers_insert hc with hc0 | rfl
        · by_cases hce : c = tref
          · exact hctref hce
          · obtain ⟨tc, hgtc, hdmc⟩ := h2 dref o0 hsome c hc0
            exact ⟨tc, (hOtherT c hce) ▸ hgtc, hdmc⟩
        · exact hctref rfl
    · obtain ⟨tc, hgtc, hdmc⟩ :=
        h2 dr o' ((hOtherO dr (fun he => hd he.symm)) ▸ hgo') c hc
      by_cases hce : c = tref
      · subst hce
        rw [hgt] at hgtc
        obtain rfl := Option.some.inj hgtc
        exact ⟨t', hgt', hdeps' ▸ List.mem_append_left _ hdmc⟩
      · exact ⟨tc, (hOtherT c hce) ▸ hgtc, hdmc⟩
  · -- depsNodup
    intro r tr hgr
    by_cases hr : tref = r
    · subst hr
      rw [hgt'] at hgr
      obtain rfl := Option.some.inj hgr
      rw [hdeps']
      exact nodup_concat (h3 tref t hgt) hdnew
    · exact h3 r tr ((hOtherT r (fun he => hr he.symm)) ▸ hgr)
  · -- consNodup
    intro dr o' hgo'
    by_cases hd : dref = dr
    · subst hd
      rw [hObj'] at hgo'
      obtain rfl := Option.some.inj hgo'
      rcases hOld with ⟨_, hcons⟩ | ⟨o0, hsome, hcons, _⟩
      · rw [hcons]; exact List.nodup_singleton tref
      · rw [hcons]; exact consumers_insert_nodup (h4 dref o0 hsome) tref
    · exact h4 dr o' ((hOtherO dr (fun he => hd he.symm)) ▸ hgo')
  · -- countOK
    intro r tr n hgr hst
    have hdnl_new : depNotLocal s' dref = remoteFlag := by
      rw [depNotLocal_eq_of_some hObj', hflag, Bool.not_not]
    by_cases hr : tref = r
    · subst hr
      rw [hgt'] at hgr
      obtain rfl := Option.some.inj hgr
      have hcong : t.deps.filter (fun d => depNotLocal s' d) =
          t.deps.filter (fun d => depNotLocal s d) :=
        List.filter_congr (fun d hdm => hdnl_pres tref t hgt d hdm)
      rcases htask with ⟨hrf, k, hk, hq⟩ | ⟨hrf, hq⟩
      · rw [hgt'] at hq
        obtain heqt := Option.some.inj hq
        have hstq : t'.state = .Waiting (k + 1) := by rw [heqt]
        have hn : n = k + 1 := by
          rw [hstq] at hst
          exact (TState.Waiting.inj hst).symm
        have hk5 := h5 tref t k hgt hk
        rw [hn, hdeps', List.filter_append, List.length_append, hcong, ← hk5]
        have hone : ([dref].filter (fun d => depNotLocal s' d)).length = 1 := by
          simp [List.filter_cons, hdnl_new, hrf]
        omega
      · rw [hgt'] at hq
        obtain heqt := Option.some.inj hq
        have hstq : t'.state = t.state := by rw [heqt]
        have hk5 := h5 tref t n hgt (hstq ▸ hst)
        rw [hdeps', List.filter_append, List.length_append, hcong, ← hk5]
        have hzero : ([dref].filter (fun d => depNotLocal s' d)).length = 0 := by
          simp [List.filter_cons, hdnl_new, hrf]
        omega
    · have hgr0 : s.wtasks[r]? = some tr := (hOtherT r (fun he => hr he.symm)) ▸ hgr
      have hcong : tr.deps.filter (fun d => depNotLocal s' d) =
          tr.deps.filter (fun d => depNotLocal s d) :=
        List.filter_congr (fun d hdm => hdnl_pres r tr hgr0 d hdm)
      rw [hcong]
      exact h5 r tr n hgr0 hst

/-- A successful `add_dependancy` preserves the invariant, provided the
dependency id does not already resolve to one of the task's deps. -/
theorem WF_adddep {s s' : WorkerState} {tref did size : Nat} {workers : List Nat}
    (hwf : WF s) (hgood : good_op s (.adddep tref did size workers) = true)
    (h : add_dependancy s tref did size workers = some s') : WF s' := by
  unfold add_dependancy at h
  cases hgt : s.wtasks[tref]? with
  | none => simp only [hgt] at h; exact Option.noConfusion h
  | some t =>
    simp only [hgt] at h
    cases hl : lookupM s.data_map did with
    | none =>
      simp only [hl] at h
      obtain ⟨oC, hgC, hobj', hOtherO1, hOtherT1, _, htask1⟩ :=
        add_dependancy_core_spec h (lt_of_getq hgt)
      have hoCval : oC = ⟨did, size, .Remote workers, []⟩ := by
        have hgC' : (s.dobjs ++ [(⟨did, size, .Remote workers, []⟩ : DataObject)])[
            s.dobjs.length]? = some oC := hgC
        rw [List.getElem?_concat_length] at hgC'
        exact (Option.some.inj hgC').symm
      subst hoCval
      have hdnew : s.dobjs.length ∉ t.deps := by
        intro hmem
        obtain ⟨o, lu, _⟩ := hwf.1 tref t hgt _ hmem
        exact absurd (lt_of_getq lu) (Nat.lt_irrefl _)
      refine @WF_adddep_update s s' tref _ t _ true hwf hgt hdnew hobj' ?_ ?_ ?_ ?_ ?_
      · refine Or.inl ⟨List.getElem?_eq_none (Nat.le_refl _), ?_⟩
        simp [consumers_insert]
      · rfl
      · intro d hd
        rw [hOtherO1 d hd]
        exact getq_append_other hd
      · intro r hr
        exact hOtherT1 r hr
      · rcases htask1 with ⟨_, k, hk, hq⟩ | ⟨hfalse, _⟩
        · exact Or.inl ⟨rfl, k, hk, hq⟩
        · exact Bool.noConfusion hfalse
    | some dref =>
      simp only [hl] at h
      have hdnew : dref ∉ t.deps := by
        have hgood' := hgood
        simp only [good_op, hl, hgt] at hgood'
        simpa using hgood'
      cases hgo : s.dobjs[dref]? with
      | none => simp only [hgo] at h; exact Option.noConfusion h
      | some o0 =>
        simp only [hgo] at h
        cases hos : o0.state with
        | Remote ws0 =>
          simp only [hos] at h
          obtain ⟨oC, hgC, hobj', hOtherO1, hOtherT1, _, htask1⟩ :=
            add_dependancy_core_spec h (lt_of_getq hgt)
          have hoCval : oC = { o0 with state := .Remote workers } := by
            have hgC' : (s.dobjs.set dref { o0 with state := .Remote workers })[dref]? =
                some oC := hgC
            rw [getq_set_self _ (lt_of_getq hgo)] at hgC'
            exact (Option.some.inj hgC').symm
          subst hoCval
          refine @WF_adddep_update s s' tref dref t _ true hwf hgt hdnew hobj' ?_ ?_ ?_ ?_ ?_
          · refine Or.inr ⟨o0, hgo, rfl, ?_⟩
            rw [hos]
            rfl
          · rfl
          · intro d hd
            rw [hOtherO1 d hd]
            exact getq_set_ne _ (fun he => hd he.symm)
          · intro r hr
            exact hOtherT1 r hr
          · rcases htask1 with ⟨_, k, hk, hq⟩ | ⟨hfalse, _⟩
            · exact Or.inl ⟨rfl, k, hk, hq⟩
            · exact Bool.noConfusion hfalse
        | Lcl b sr =>
          simp only [hos] at h
          obtain ⟨oC, hgC, hobj', hOtherO1, hOtherT1, _, htask1⟩ :=
            add_dependancy_core_spec h (lt_of_getq hgt)
          have hoCval : oC = o0 := by
            rw [hgo] at hgC
            exact (Option.some.inj hgC).symm
          rw [hoCval] at hobj'
          refine @WF_adddep_update s s' tref dref t _ false hwf hgt hdnew hobj' ?_ ?_ ?_ ?_ ?_
          · exact Or.inr ⟨o0, hgo, rfl, rfl⟩
          · rw [hos]
            rfl
          · intro d hd
            exact hOtherO1 d hd
          · intro r hr
            exact hOtherT1 r hr
          · rcases htask1 with ⟨hfalse, _⟩ | ⟨_, hq⟩
            · exact Bool.noConfusion hfalse
            · exact Or.inr ⟨rfl, hq⟩
        | Removed => simp only [hos] at h; exact Option.noConfusion h

/-- The consumer loop of `on_data_downloaded` turns a pending-count
invariant into the plain invariant: every pending consumer is decremented
exactly once. -/
theorem download_consumers_WF :
    ∀ (pending : List Nat) (s s' : WorkerState),
      download_consumers s pending = some s' → pending.Nodup →
      validDeps s → validConsumers s → depsNodup s → consNodup s →
      pendingCountOK s pending → WF s' := by
  intro pending
  induction pending with
  | nil =>
    intro s s' h _ h1 h2 h3 h4 h5
    simp only [download_consumers, Option.some.injEq] at h
    subst h
    exact ⟨h1, h2, h3, h4, countOK_of_pending_nil h5⟩
  | cons c0 rest ih =>
    intro s s' h hnd h1 h2 h3 h4 h5
    have hc0r : c0 ∉ rest := (List.nodup_cons.mp hnd).1
    have hndr : rest.Nodup := (List.nodup_cons.mp hnd).2
    unfold download_consumers at h
    cases hg : s.wtasks[c0]? with
    | none => simp only [hg] at h; exact Option.noConfusion h
    | some t =>
      simp only [hg] at h
      cases hdc : decrease_waiting_count t.state with
      | none => simp only [hdc] at h; exact Option.noConfusion h
      | some p =>
        obtain ⟨ts', ready⟩ := p
        simp only [hdc] at h
        obtain ⟨m, hts, hts', hready⟩ := decrease_waiting_count_inv hdc
        subst hts'
        have hlt : c0 < s.wtasks.length := lt_of_getq hg
        -- the intermediate state with the consumer decremented
        have k1 : validDeps { s with wtasks := s.wtasks.set c0 { t with state := .Waiting m } } := by
          intro r tr hgr d hdm
          by_cases hr : c0 = r
          · subst hr
            have hgr' : (s.wtasks.set c0 { t with state := .Waiting m })[c0]? =
                some { t with state := .Waiting m } := getq_set_self _ hlt
            rw [hgr'] at hgr
            obtain rfl := Option.some.inj hgr
            exact h1 c0 t hg d hdm
          · have hgr' : (s.wtasks.set c0 { t with state := .Waiting m })[r]? =
                s.wtasks[r]? := getq_set_ne _ hr
            rw [hgr'] at hgr
            exact h1 r tr hgr d hdm
        have k2 : validConsumers
            { s with wtasks := s.wtasks.set c0 { t with state := .Waiting m } } := by
          intro dr o hgo c hc
          obtain ⟨tc, hgtc, hdmc⟩ := h2 dr o hgo c hc
          by_cases hce : c0 = c
          · subst hce
            rw [hg] at hgtc
            obtain rfl := Option.some.inj hgtc
            exact ⟨{ t with state := .Waiting m }, getq_set_self _ hlt, hdmc⟩
          · exact ⟨tc, (getq_set_ne _ hce).trans hgtc, hdmc⟩
        have k3 : depsNodup
            { s with wtasks := s.wtasks.set c0 { t with state := .Waiting m } } := by
          intro r tr hgr
          by_cases hr : c0 = r
          · subst hr
            rw [getq_set_self _ hlt] at hgr
            obtain rfl := Option.some.inj hgr
            exact h3 c0 t hg
          · rw [getq_set_ne _ hr] at hgr
            exact h3 r tr hgr
        have k4 : consNodup
            { s with wtasks := s.wtasks.set c0 { t with state := .Waiting m } } := by
          intro dr o hgo
          exact h4 dr o hgo
        have k5 : pendingCountOK
            { s with wtasks := s.wtasks.set c0 { t with state := .Waiting m } } rest := by
          intro r tr n hgr hst
          by_cases hr : c0 = r
          · subst hr
            rw [getq_set_self _ hlt] at hgr
            obtain rfl := Option.some.inj hgr
            obtain rfl : m = n := TState.Waiting.inj hst
            have h50 := h5 c0 t (m + 1) hg hts
            rw [if_pos (List.mem_cons_self c0 rest)] at h50
            rw [if_neg hc0r]
            show m = (t.deps.filter (fun d => depNotLocal s d)).length + 0
            omega
          · rw [getq_set_ne _ hr] at hgr
            have h50 := h5 r tr n hgr hst
            by_cases hrr : r ∈ rest
            · rw [if_pos (List.mem_cons_of_mem c0 hrr)] at h50
              rw [if_pos hrr]
              show n = (tr.deps.filter (fun d => depNotLocal s d)).length + 1
              exact h50
            · have hnc : r ∉ c0 :: rest := by
                intro hmem
                rcases List.mem_cons.mp hmem with he | hm
                · exact hr he.symm
                · exact hrr hm
              rw [if_neg hnc] at h50
              rw [if_neg hrr]
              show n = (tr.deps.filter (fun d => depNotLocal s d)).length + 0
              exact h50
        cases hre : ready with
        | false =>
          rw [hre, if_neg (by simp : ¬ (false = true))] at h
          exact ih _ s' h hndr k1 k2 k3 k4 k5
        | true =>
          rw [hre, if_pos rfl] at h
          cases har : add_ready_task
              { s with wtasks := s.wtasks.set c0 { t with state := .Waiting m } } c0 with
          | none => rw [har] at h; exact Option.noConfusion h
          | some s2 =>
            rw [har] at h
            obtain ⟨e1, _, _, _, _, e6, e7⟩ := add_ready_task_evolve har
            obtain ⟨m1, m2, m3, m4, m5⟩ := WFp_of_evolve rest e1 e6 e7 k1 k2 k3 k4 k5
            exact ih s2 s' h hndr m1 m2 m3 m4 m5

/-- A successful `on_data_downloaded` preserves the invariant. -/
theorem WF_download {s s' : WorkerState} {dref : Nat} {data : List Nat} {ser : Nat}
    (hwf : WF s) (h : on_data_downloaded s dref data ser = some s') : WF s' := by
  obtain ⟨h1, h2, h3, h4, h5⟩ := hwf
  unfold on_data_downloaded at h
  cases hg : s.dobjs[dref]? with
  | none => simp only [hg] at h; exact Option.noConfusion h
  | some o0 =>
    simp only [hg] at h
    cases hos : o0.state with
    | Removed =>
      simp only [hos] at h
      obtain rfl := Option.some.inj h
      exact ⟨h1, h2, h3, h4, h5⟩
    | Lcl b sr => simp only [hos] at h; exact Option.noConfusion h
    | Remote ws =>
      simp only [hos] at h
      have hdlt : dref < s.dobjs.length := lt_of_getq hg
      refine download_consumers_WF o0.consumers _ s' h (h4 dref o0 hg) ?_ ?_ ?_ ?_ ?_
      · -- validDeps of the Local-updated state
        intro r tr hgr d hdm
        obtain ⟨o, lu, mem⟩ := h1 r tr hgr d hdm
        by_cases hd : dref = d
        · subst hd
          rw [hg] at lu
          obtain rfl := Option.some.inj lu
          exact ⟨{ o0 with state := .Lcl data ser }, getq_set_self _ hdlt, mem⟩
        · exact ⟨o, (getq_set_ne _ hd).trans lu, mem⟩
      · intro dr o hgo c hc
        by_cases hd : dref = dr
        · subst hd
          have hgo' : (s.dobjs.set dref { o0 with state := .Lcl data ser })[dref]? =
              some { o0 with state := .Lcl data ser } := getq_set_self _ hdlt
          rw [hgo'] at hgo
          obtain rfl := Option.some.inj hgo
          exact h2 dref o0 hg c hc
        · have hgo' : (s.dobjs.set dref { o0 with state := .Lcl data ser })[dr]? =
              s.dobjs[dr]? := getq_set_ne _ hd
          rw [hgo'] at hgo
          exact h2 dr o hgo c hc
      · intro r tr hgr
        exact h3 r tr hgr
      · intro dr o hgo
        by_cases hd : dref = dr
        · subst hd
          rw [getq_set_self _ hdlt] at hgo
          obtain rfl := Option.some.inj hgo
          exact h4 dref o0 hg
        · rw [getq_set_ne _ hd] at hgo
          exact h4 dr o hgo
      · -- pendingCountOK: consumers of the freshly Local object owe one decrement
        intro r tr n hgr hst
        have h50 := h5 r tr n hgr hst
        have hp_old : depNotLocal s dref = true := by
          rw [depNotLocal_eq_of_some hg, hos]
          rfl
        have hq_new : depNotLocal
            { s with dobjs := s.dobjs.set dref { o0 with state := .Lcl data ser },
                     msgs := s.msgs ++ [o0.id] } dref = false := by
          rw [depNotLocal_eq_of_some (getq_set_self _ hdlt)]
          rfl
        have hother : ∀ d ∈ tr.deps, d ≠ dref → depNotLocal s d = depNotLocal
            { s with dobjs := s.dobjs.set dref { o0 with state := .Lcl data ser },
                     msgs := s.msgs ++ [o0.id] } d := by
          intro d _ hd
          exact (depNotLocal_congr_at (getq_set_ne _ (fun he => hd he.symm))).symm
        by_cases hr : r ∈ o0.consumers
        · obtain ⟨t2, lu2, hdm2⟩ := h2 dref o0 hg r hr
          rw [hgr] at lu2
          obtain rfl := Option.some.inj lu2
          have hflip := filter_length_flip (h3 r tr hgr) hdm2 hp_old hq_new
            (fun x hx hxa => hother x hx hxa)
          rw [if_pos hr, ← hflip]
          exact h50
        · have hdnm : dref ∉ tr.deps := by
            intro hdm
            obtain ⟨o, lu, mem⟩ := h1 r tr hgr dref hdm
            rw [hg] at lu
            obtain rfl := Option.some.inj lu
            exact hr mem
          have hcong : tr.deps.filter (fun d => depNotLocal
              { s with dobjs := s.dobjs.set dref { o0 with state := .Lcl data ser },
                       msgs := s.msgs ++ [o0.id] } d) =
              tr.deps.filter (fun d => depNotLocal s d) := by
            apply List.filter_congr
            intro d hdm
            exact (hother d hdm (fun he => hdnm (he ▸ hdm))).symm
          rw [if_neg hr, hcong]
          simpa using h50

/-- A successful `remove_data` preserves the invariant. -/
theorem WF_rmdata {s s' : WorkerState} {task_id : Nat} (hwf : WF s)
    (h : remove_data s task_id = some s') : WF s' := by
  obtain ⟨h1, h2, h3, h4, h5⟩ := hwf
  unfold remove_data at h
  cases hl : lookupM s.data_map task_id with
  | none =>
    simp only [hl] at h
    obtain rfl := Option.some.inj h
    exact ⟨h1, h2, h3, h4, h5⟩
  | some dref =>
    simp only [hl] at h
    cases hg : s.dobjs[dref]? with
    | none => simp only [hg] at h; exact Option.noConfusion h
    | some o0 =>
      simp only [hg] at h
      split at h
      · next hemp =>
        obtain rfl := Option.some.inj h
        have hempty : o0.consumers = [] := List.isEmpty_iff.mp hemp
        have hnodep : ∀ (r : Nat) (tr : WTask), s.wtasks[r]? = some tr → dref ∉ tr.deps := by
          intro r tr hgr hdm
          obtain ⟨o, lu, mem⟩ := h1 r tr hgr dref hdm
          rw [hg] at lu
          obtain rfl := Option.some.inj lu
          rw [hempty] at mem
          exact (List.not_mem_nil r) mem
        refine ⟨?_, ?_, ?_, ?_, ?_⟩
        · intro r tr hgr d hdm
          have hgr0 : s.wtasks[r]? = some tr := hgr
          obtain ⟨o, lu, mem⟩ := h1 r tr hgr0 d hdm
          by_cases hd : dref = d
          · subst hd
            exact absurd hdm (hnodep r tr hgr0)
          · exact ⟨o, (getq_set_ne _ hd).trans lu, mem⟩
        · intro dr o hgo c hc
          have hgo0 : (s.dobjs.set dref { o0 with state := .Removed })[dr]? = some o := hgo
          by_cases hd : dref = dr
          · subst hd
            rw [getq_set_self _ (lt_of_getq hg)] at hgo0
            obtain rfl := Option.some.inj hgo0
            have hc0 : c ∈ o0.consumers := hc
            rw [hempty] at hc0
            exact absurd hc0 (List.not_mem_nil c)
          · rw [getq_set_ne _ hd] at hgo0
            exact h2 dr o hgo0 c hc
        · intro r tr hgr
          exact h3 r tr hgr
        · intro dr o hgo
          have hgo0 : (s.dobjs.set dref { o0 with state := .Removed })[dr]? = some o := hgo
          by_cases hd : dref = dr
          · subst hd
            rw [getq_set_self _ (lt_of_getq hg)] at hgo0
            obtain rfl := Option.some.inj hgo0
            exact h4 dref o0 hg
          · rw [getq_set_ne _ hd] at hgo0
            exact h4 dr o hgo0
        · intro r tr n hgr hst
          have hgr0 : s.wtasks[r]? = some tr := hgr
          have h50 := h5 r tr n hgr0 hst
          have hcong : tr.deps.filter (fun d => depNotLocal
              { s with data_map := eraseM s.data_map task_id,
                       dobjs := s.dobjs.set dref { o0 with state := .Removed } } d) =
              tr.deps.filter (fun d => depNotLocal s d) := by
            apply List.filter_congr
            intro d hdm
            have hd : d ≠ dref := fun he => hnodep r tr hgr0 (he ▸ hdm)
            exact depNotLocal_congr_at (getq_set_ne _ (fun he => hd he.symm))
          rw [hcong]
          exact h50
      · exact Option.noConfusion h

/-- A successful `remove_task` preserves the invariant. -/
theorem WF_rmtask {s s' : WorkerState} {tref : Nat} {jf : Bool} (hwf : WF s)
    (h : remove_task s tref jf = some s') : WF s' := by
  obtain ⟨h1, h2, h3, h4, h5⟩ := hwf
  have hg0 : ∃ t, s.wtasks[tref]? = some t := by
    unfold remove_task at h
    cases hg : s.wtasks[tref]? with
    | none => rw [hg] at h; exact Option.noConfusion h
    | some t => exact ⟨t, rfl⟩
  obtain ⟨t, hg⟩ := hg0
  obtain ⟨_, _, _, c4, c5, _, _, _, _, _, _, _, _, _, _, c16, c17⟩ :=
    remove_task_spec s tref t jf s' hg h
  have hdep := c17 (h3 tref t hg)
  refine ⟨?_, ?_, ?_, ?_, ?_⟩
  · intro r tr hgr d hdm
    by_cases hr : tref = r
    · subst hr
      rw [c4] at hgr
      obtain rfl := Option.some.inj hgr
      exact absurd hdm (List.not_mem_nil d)
    · rw [c5 r (fun he => hr he.symm)] at hgr
      obtain ⟨o, lu, mem⟩ := h1 r tr hgr d hdm
      by_cases hdm2 : d ∈ t.deps
      · obtain ⟨_, hset, _⟩ := hdep d o hdm2 lu
        refine ⟨_, hset, ?_⟩
        refine List.mem_filter.mpr ⟨mem, ?_⟩
        simpa using fun he => hr he.symm
      · exact ⟨o, (c16 d hdm2).trans lu, mem⟩
  · intro dr o' hgo' c hc
    by_cases hdm2 : dr ∈ t.deps
    · obtain ⟨o, lu, _⟩ := h1 tref t hg dr hdm2
      obtain ⟨_, hset, _⟩ := hdep dr o hdm2 lu
      rw [hset] at hgo'
      obtain rfl := Option.some.inj hgo'
      have hc' : c ∈ o.consumers.filter (fun x => x ≠ tref) := hc
      have hcm := List.mem_filter.mp hc'
      have hcne : c ≠ tref := by simpa using hcm.2
      obtain ⟨tc, hgtc, hdmc⟩ := h2 dr o lu c hcm.1
      exact ⟨tc, (c5 c hcne).trans hgtc, hdmc⟩
    · rw [c16 dr hdm2] at hgo'
      obtain ⟨tc, hgtc, hdmc⟩ := h2 dr o' hgo' c hc
      by_cases hcne : c = tref
      · subst hcne
        rw [hg] at hgtc
        obtain rfl := Option.some.inj hgtc
        exact absurd hdmc hdm2
      · exact ⟨tc, (c5 c hcne).trans hgtc, hdmc⟩
  · intro r tr hgr
    by_cases hr : tref = r
    · subst hr
      rw [c4] at hgr
      obtain rfl := Option.some.inj hgr
      exact List.nodup_nil
    · rw [c5 r (fun he => hr he.symm)] at hgr
      exact h3 r tr hgr
  · intro dr o' hgo'
    by_cases hdm2 : dr ∈ t.deps
    · obtain ⟨o, lu, _⟩ := h1 tref t hg dr hdm2
      obtain ⟨_, hset, _⟩ := hdep dr o hdm2 lu
      rw [hset] at hgo'
      obtain rfl := Option.some.inj hgo'
      exact List.Nodup.filter _ (h4 dr o lu)
    · rw [c16 dr hdm2] at hgo'
      exact h4 dr o' hgo'
  · intro r tr n hgr hst
    by_cases hr : tref = r
    · subst hr
      rw [c4] at hgr
      obtain rfl := Option.some.inj hgr
      exact absurd hst (by simp)
    · rw [c5 r (fun he => hr he.symm)] at hgr
      have h50 := h5 r tr n hgr hst
      have hcong : tr.deps.filter (fun d => depNotLocal s' d) =
          tr.deps.filter (fun d => depNotLocal s d) := by
        apply List.filter_congr
        intro d hdm
        by_cases hdm2 : d ∈ t.deps
        · obtain ⟨o, lu, _⟩ := h1 tref t hg d hdm2
          obtain ⟨_, hset, _⟩ := hdep d o hdm2 lu
          rw [depNotLocal_eq_of_some hset, depNotLocal_eq_of_some lu]
          split
          · next hcond =>
            have hrem : o.state.isRemote = true := by
              have hc2 := hcond
              simp only [Bool.and_eq_true] at hc2
              exact hc2.2
            have hnl : o.state.isLcl = false := by
              revert hrem
              cases o.state with
              | Remote ws0 => intro _; rfl
              | Lcl b sr => intro hrem; exact Bool.noConfusion hrem
              | Removed => intro _; rfl
            rw [hnl]
            rfl
          · rfl
        · exact depNotLocal_congr_at (c16 d hdm2)
      rw [hcong]
      exact h50

/-- The invariant holds in the fresh worker state. -/
theorem WF_init : WF initState := by
  refine ⟨?_, ?_, ?_, ?_, ?_⟩
  · intro tref t hg
    simp [initState] at hg
  · intro dref o hg
    simp [initState] at hg
  · intro tref t hg
    simp [initState] at hg
  · intro dref o hg
    simp [initState] at hg
  · intro tref t n hg
    simp [initState] at hg

/-- Every panic-free, distinctness-respecting operation preserves the
invariant. -/
theorem WF_step {s s' : WorkerState} {op : Op} (hwf : WF s) (hgood : good_op s op = true)
    (h : apply_op s op = some s') : WF s' := by
  cases op with
  | setsub ids => exact WF_setsub hwf h
  | create id priority =>
    simp only [apply_op, Option.some.injEq] at h
    subst h
    exact WF_create id priority hwf
  | adddep tref task_id size workers => exact WF_adddep hwf hgood h
  | addtask tref => exact WF_addtask hwf h
  | download dref data serializer => exact WF_download hwf h
  | rmdata task_id => exact WF_rmdata hwf h
  | rmtask tref jf => exact WF_rmtask hwf h
  | steal task_id =>
    have h2 : (steal_task s task_id).map (fun p => p.2) = some s' := h
    cases hs : steal_task s task_id with
    | none => rw [hs] at h2; exact Option.noConfusion h2
    | some p =>
      rw [hs, Option.map_some'] at h2
      obtain rfl : p.2 = s' := Option.some.inj h2
      unfold steal_task at hs
      cases hl : lookupM s.task_map task_id with
      | none =>
        simp only [hl] at hs
        obtain rfl := Option.some.inj hs
        exact hwf
      | some tref =>
        simp only [hl] at hs
        cases hg : s.wtasks[tref]? with
        | none => simp only [hg] at hs; exact Option.noConfusion hs
        | some t =>
          simp only [hg] at hs
          cases hst : t.state with
          | Waiting n =>
            simp only [hst, Option.map_eq_some'] at hs
            obtain ⟨s3, hrm, heq3⟩ := hs
            have hs3 : s3 = p.2 := congrArg Prod.snd heq3
            rw [hs3] at hrm
            exact WF_rmtask hwf hrm
          | Running sub =>
            simp only [hst] at hs
            obtain rfl := Option.some.inj hs
            exact hwf
          | Removed =>
            simp only [hst] at hs
            obtain rfl := Option.some.inj hs
            exact hwf

/-- Every reachable worker state satisfies the invariant. -/
theorem Reach_WF {s : WorkerState} (h : Reach s) : WF s := by
  induction h with
  | init => exact WF_init
  | step s s' op _ hg hap ih => exact WF_step ih hg hap

/-- C2 (amended): in every worker state reachable from the fresh state by
panic-free reactor operations that register each dependency of a task at
most once (`good_op`), every `Waiting` task's remaining-wait count equals
the number of its dependencies whose `DataObject` is not in the `Lcl`
(Local) state: `add_dependancy` increments the count (and enqueues a fetch
request) exactly when the object is `Remote`, and `on_data_downloaded`
decrements each consumer's count exactly once when the object becomes
`Lcl`. -/
theorem c2_waiting_count_invariant (s : WorkerState) (h : Reach s) (tref : Nat)
    (t : WTask) (n : Nat) (h1 : s.wtasks[tref]? = some t)
    (h2 : t.state = .Waiting n) :
    n = (t.deps.filter (fun d => depNotLocal s d)).length :=
  (Reach_WF h).2.2.2.2 tref t n h1 h2

/-- Operation sequence registering the same dependency id twice for one
task: `consumers` is a set (`HashSet::insert`) but `deps` is a `Vec` and
the wait count a plain counter, so the second `add_dependancy` increments
the count without adding a consumer entry. -/
def c2ops : List Op :=
  [.create 7 (0, 0), .adddep 0 42 5 [3], .adddep 0 42 5 [3], .download 0 [9] 1]

/-- C2 counterexample: without the each-dependency-registered-once
restriction the claimed invariant fails — after `add_dependancy` is called
twice with the same dependency id for the same task (count incremented
twice, one consumer entry) and the object is downloaded (count decremented
once per consumer entry), the task's remaining-wait count is `1` while the
number of its non-`Lcl` dependencies is `0`. -/
theorem c2_counterexample_duplicate_dependency :
    ((apply_ops c2ops initState).bind (fun s => (s.wtasks[0]?).map (fun t =>
      (t.state, (t.deps.filter (fun d => depNotLocal s d)).length)))) =
      some (.Waiting 1, 0) ∧ (1 : Nat) ≠ 0 := by
  exact ⟨by decide, by decide⟩

/-- The worker state after `create 7 (0,0)` and `adddep 0 42 5 [3]` from
the fresh state: one task waiting on one `Remote` dependency. -/
def c2ws : WorkerState :=
  ⟨[⟨7, (0, 0), [0], .Waiting 1⟩], [⟨42, 5, .Remote [3], [0]⟩], [], [(42, 0)],
   [], [], [], [], [(0, (0, 0))]⟩

/-- C2 witness: in the reachable state `c2ws` the waiting count `1` of the
task equals the number of its non-`Lcl` dependencies. -/
theorem c2_waiting_count_invariant_witness :
    (1 : Nat) = (([0] : List Nat).filter (fun d => depNotLocal c2ws d)).length := by
  have hr1 : Reach (create_task initState 7 (0, 0)).1 :=
    Reach.step initState _ (.create 7 (0, 0)) Reach.init (by decide) rfl
  have hr2 : Reach c2ws :=
    Reach.step _ c2ws (.adddep 0 42 5 [3]) hr1 (by decide) (by decide)
  exact c2_waiting_count_invariant c2ws hr2 0 ⟨7, (0, 0), [0], .Waiting 1⟩ 1 rfl rfl

end Rsds
